import Mathlib

/-!
Verification of the BoxClass head (`MaskRCNN/model/boxclass_head.py`).

The TensorFlow code is shallowly embedded over exact rationals (`ℚ` stands for
the float values; no claim under scrutiny depends on rounding).  Tensors are
embedded as (nested) lists, a tensor gather that can fail with an out-of-range
index on the TF side is embedded as an `Option`-valued function, and the
per-image bookkeeping loop of `BoxClassHead.losses` becomes an `Option`-monadic
fold over the image index.
-/

/- ### Generic tensor helpers -/

/-- `tf.where(mask)[:, 0]` for a 1-D boolean mask: the indices (in ascending
order) at which the mask holds. -/
def whereIdx (p : α → Bool) (l : List α) : List ℕ :=
  (l.enum.filter fun ia => p ia.2).map Prod.fst

/-- `tf.gather` on axis 0.  TF fails on an out-of-range index, hence `Option`. -/
def gather [Inhabited α] (l : List α) (idx : List ℕ) : Option (List α) :=
  if idx.all fun i => decide (i < l.length) then
    some (idx.map fun i => l.getD i default)
  else none

/-- `tf.gather_nd` with rank-2 index pairs on a rank-3 tensor (used with
`fg_box_logits`).  TF fails on an out-of-range index, hence `Option`. -/
def gatherND2 (t : List (List (List ℚ))) (idx : List (ℕ × ℕ)) :
    Option (List (List ℚ)) :=
  if idx.all fun ic => decide (ic.1 < t.length) &&
      decide (ic.2 < (t.getD ic.1 []).length) then
    some (idx.map fun ic => (t.getD ic.1 []).getD ic.2 [])
  else none

/-- `tf.argmax` on a vector: index of the first maximal entry (TF returns the
smallest index attaining the maximum). -/
def argmaxIdx (l : List ℚ) : ℕ :=
  (l.enum.foldl (fun best ix => if best.2 < ix.2 then ix else best)
    (0, l.headD 0)).1

/- ### boxclass_losses (source lines 42-87) -/

/-- The elementwise Huber kernel of `tf.losses.huber_loss` at its default
`delta = 1`. -/
def huber (d : ℚ) : ℚ := if |d| ≤ 1 then d ^ 2 / 2 else |d| - 1 / 2

/-- `tf.losses.huber_loss(labels, predictions, reduction=SUM)`: the Huber
kernel of the elementwise difference, summed over every element. -/
def huberLossSum (lbl pred : List (List ℚ)) : ℚ :=
  ((lbl.zip pred).map fun rp =>
    ((rp.1.zip rp.2).map fun ab => huber (ab.2 - ab.1)).sum).sum

/-- The outputs of `boxclass_losses` that the claims quantify over.  The label
cross-entropy (line 54-56) is the only output not embedded: it is the one use
of transcendental arithmetic in the function and no claim mentions its value. -/
structure BoxClassLossOut where
  fgInds : List ℕ
  fgBoxLogitsSel : List (List ℚ)
  accuracy : ℚ
  falseNegative : ℚ
  fgAccuracy : ℚ
  boxLoss : ℚ
deriving DecidableEq

/-- Embedding of `boxclass_losses` (source lines 42-87).  `K` is the static
class dimension `fg_box_logits.shape[1]`.  The quotients `0 / 0` that TF turns
into NaN only arise behind the `empty_fg` guards or for an empty batch, and no
claim touches the empty batch, so `ℚ` division (with `x / 0 = 0`) is adequate. -/
def boxclass_losses (K : ℕ) (labels : List ℕ) (labelLogits : List (List ℚ))
    (fgBoxes : List (List ℚ)) (fgBoxLogits : List (List (List ℚ))) :
    Option BoxClassLossOut :=
  let fgInds := whereIdx (fun l => decide (0 < l)) labels
  (gather labels fgInds).bind fun fgLabels =>
  let numFg := fgInds.length
  (if 1 < K then gatherND2 fgBoxLogits ((List.range numFg).zip fgLabels)
   else some (fgBoxLogits.map List.join)).bind fun sel =>
  let prediction := labelLogits.map argmaxIdx
  let correct := (prediction.zip labels).map fun pl =>
    if pl.1 = pl.2 then (1 : ℚ) else 0
  let accuracy := correct.sum / (correct.length : ℚ)
  (gather labelLogits fgInds).bind fun fgLogitRows =>
  let fgLabelPred := fgLogitRows.map argmaxIdx
  let numZero := (fgLabelPred.filter fun p => decide (p = 0)).length
  let falseNegative := if numFg = 0 then 0 else (numZero : ℚ) / (numFg : ℚ)
  (gather correct fgInds).bind fun correctFg =>
  let fgAccuracy := if numFg = 0 then 0 else correctFg.sum / (correctFg.length : ℚ)
  let boxLoss := huberLossSum fgBoxes sel / (labels.length : ℚ)
  some ⟨fgInds, sel, accuracy, falseNegative, fgAccuracy, boxLoss⟩

/-- The box-regression loss exactly as §4.4 of the spec words it: a Huber-style
loss elementwise over the foreground targets and the selected foreground
logits, summed (not averaged) over all elements, divided by the total number of
proposals, counted as foreground (label `> 0`) plus background (label `= 0`). -/
def boxLossSpec (labels : List ℕ) (fgTargets fgLogitsSel : List (List ℚ)) : ℚ :=
  (((fgTargets.zip fgLogitsSel).map fun rp =>
      ((rp.1.zip rp.2).map fun ab => huber (ab.2 - ab.1)).sum).sum) /
    ((((labels.filter fun l => decide (0 < l)).length : ℕ) +
      ((labels.filter fun l => decide (l = 0)).length : ℕ) : ℕ) : ℚ)

/- ### Helper lemmas -/

theorem whereIdx_mem_lt {p : α → Bool} {l : List α} {i : ℕ}
    (h : i ∈ whereIdx p l) : i < l.length := by
  simp only [whereIdx, List.mem_map, List.mem_filter] at h
  obtain ⟨⟨j, a⟩, ⟨hmem, _⟩, rfl⟩ := h
  obtain ⟨hlt, _⟩ := List.getElem?_eq_some.mp (List.mem_enum_iff_getElem?.mp hmem)
  exact hlt

theorem whereIdx_nil_of_none {p : α → Bool} {l : List α}
    (h : ∀ a ∈ l, p a = false) : whereIdx p l = [] := by
  simp only [whereIdx, List.map_eq_nil_iff, List.filter_eq_nil_iff]
  intro ia hmem
  obtain ⟨hlt, heq⟩ := List.getElem?_eq_some.mp (List.mem_enum_iff_getElem?.mp hmem)
  have hm : ia.2 ∈ l := by rw [← heq]; exact l.getElem_mem hlt
  simp [h ia.2 hm]

theorem gather_of_lt [Inhabited α] {l : List α} {idx : List ℕ}
    (h : ∀ i ∈ idx, i < l.length) :
    gather l idx = some (idx.map fun i => l.getD i default) := by
  simp only [gather, List.all_eq_true, decide_eq_true_eq]
  exact if_pos h

theorem gather_nil [Inhabited α] (l : List α) : gather l [] = some [] := by
  simp [gather]

theorem gatherND2_nil (t : List (List (List ℚ))) : gatherND2 t [] = some [] := by
  simp [gatherND2]

theorem fg_add_bg_count (labels : List ℕ) :
    (labels.filter fun l => decide (0 < l)).length +
      (labels.filter fun l => decide (l = 0)).length = labels.length := by
  rw [← List.countP_eq_length_filter, ← List.countP_eq_length_filter]
  simpa using (List.length_eq_countP_add_countP (fun l : ℕ => decide (0 < l)) labels).symm

/-- C1: in `boxclass_losses` the box-regression loss is the elementwise Huber
loss over the foreground targets and the selected foreground logits, summed
over all elements and divided by the total number of proposals (foreground
plus background), exactly as the spec-side formula `boxLossSpec` words it. -/
theorem c1_box_loss_total_normalization (K : ℕ) (labels : List ℕ)
    (labelLogits fgBoxes : List (List ℚ)) (fgBoxLogits : List (List (List ℚ)))
    (out : BoxClassLossOut)
    (h : boxclass_losses K labels labelLogits fgBoxes fgBoxLogits = some out) :
    out.boxLoss = boxLossSpec labels fgBoxes out.fgBoxLogitsSel := by
  simp only [boxclass_losses, Option.bind_eq_some, Option.some.injEq] at h
  obtain ⟨fgLabels, hfgl, sel, hsel, fgRows, hrows, corFg, hcor, hout⟩ := h
  subst hout
  simp only [boxLossSpec, huberLossSum, fg_add_bg_count]

theorem c1_witness :
    boxclass_losses 2 [1, 0] [[0, 1], [1, 0]] [[2, 2, 2, 2]]
        [[[0, 0, 0, 0], [2, 2, 2, 2]]] =
      some ⟨[0], [[2, 2, 2, 2]], 1, 0, 1, 0⟩ ∧
    (0 : ℚ) = boxLossSpec [1, 0] [[2, 2, 2, 2]] [[2, 2, 2, 2]] := by
  have h : boxclass_losses 2 [1, 0] [[0, 1], [1, 0]] [[2, 2, 2, 2]]
      [[[0, 0, 0, 0], [2, 2, 2, 2]]] =
      some ⟨[0], [[2, 2, 2, 2]], 1, 0, 1, 0⟩ := by with_unfolding_all rfl
  exact ⟨h, c1_box_loss_total_normalization 2 [1, 0] [[0, 1], [1, 0]] [[2, 2, 2, 2]]
    [[[0, 0, 0, 0], [2, 2, 2, 2]]] ⟨[0], [[2, 2, 2, 2]], 1, 0, 1, 0⟩ h⟩

theorem gather_eq_some [Inhabited α] {l : List α} {idx : List ℕ} {res : List α}
    (h : gather l idx = some res) : res = idx.map fun i => l.getD i default := by
  rw [gather] at h
  split at h
  · exact (Option.some.injEq _ _ ▸ h).symm
  · simp at h

theorem gatherND2_eq_some {t : List (List (List ℚ))} {idx : List (ℕ × ℕ)}
    {res : List (List ℚ)} (h : gatherND2 t idx = some res) :
    res = idx.map fun ic => (t.getD ic.1 []).getD ic.2 [] := by
  rw [gatherND2] at h
  split at h
  · exact (Option.some.injEq _ _ ▸ h).symm
  · simp at h

theorem getD_map_lt (f : α → β) (l : List α) (i : ℕ) (d : α) (d2 : β)
    (h : i < l.length) : (l.map f).getD i d2 = f (l.getD i d) := by
  rw [List.getD_eq_getElem _ _ (by simpa using h), List.getD_eq_getElem _ _ h,
    List.getElem_map]

theorem getD_zip_range (l : List ℕ) (i : ℕ) (h : i < l.length) :
    ((List.range l.length).zip l).getD i (0, 0) = (i, l.getD i 0) := by
  have hlen : i < ((List.range l.length).zip l).length := by
    simpa [List.length_zip] using h
  rw [List.getD_eq_getElem _ _ hlen, List.getD_eq_getElem _ _ h, List.getElem_zip,
    List.getElem_range]

/-- The `accuracy` diagnostic of `boxclass_losses` (lines 70-72), as a
standalone expression so that theorems can name the full output record. -/
def accuracyExpr (labelLogits : List (List ℚ)) (labels : List ℕ) : ℚ :=
  let correct := ((labelLogits.map argmaxIdx).zip labels).map fun pl =>
    if pl.1 = pl.2 then (1 : ℚ) else 0
  correct.sum / (correct.length : ℚ)

/-- C3: when no label is foreground (`labels > 0` nowhere), `boxclass_losses`
succeeds, the gathered foreground logit selection is the empty list of rows,
and the `false_negative` and `fg_accuracy` diagnostics are exactly 0 thanks to
the `empty_fg` guards. -/
theorem c3_zero_foreground_diagnostics (K : ℕ) (labels : List ℕ)
    (labelLogits fgBoxes : List (List ℚ)) (fgBoxLogits : List (List (List ℚ)))
    (hfg : ∀ l ∈ labels, ¬ 0 < l) (hK : 1 < K ∨ fgBoxLogits = []) :
    ∃ out, boxclass_losses K labels labelLogits fgBoxes fgBoxLogits = some out ∧
      out.falseNegative = 0 ∧ out.fgAccuracy = 0 ∧ out.fgBoxLogitsSel = [] := by
  have h0 : whereIdx (fun l => decide (0 < l)) labels = [] :=
    whereIdx_nil_of_none (by intro a ha; simpa using hfg a ha)
  cases hK with
  | inl hK =>
    refine ⟨⟨[], [], accuracyExpr labelLogits labels, 0, 0, 0⟩, ?_, rfl, rfl, rfl⟩
    simp [boxclass_losses, h0, gather_nil, gatherND2_nil, hK, huberLossSum,
      accuracyExpr]
  | inr hK =>
    subst hK
    refine ⟨⟨[], [], accuracyExpr labelLogits labels, 0, 0, 0⟩, ?_, rfl, rfl, rfl⟩
    simp [boxclass_losses, h0, gather_nil, gatherND2_nil, huberLossSum,
      accuracyExpr]

theorem c3_witness :
    (∀ l ∈ ([0, 0] : List ℕ), ¬ 0 < l) ∧
    ∃ out, boxclass_losses 2 [0, 0] [[1, 0], [0, 1]] [] [] = some out ∧
      out.falseNegative = 0 ∧ out.fgAccuracy = 0 ∧ out.fgBoxLogitsSel = [] :=
  ⟨by simp, c3_zero_foreground_diagnostics 2 [0, 0] [[1, 0], [0, 1]] [] []
    (by simp) (Or.inl (by norm_num))⟩

/-- C4: with more than one regression class slot, the selected foreground
logit row `i` is the entry of `fg_box_logits` at the index pair
(foreground row `i`, its ground-truth class label); with exactly one slot the
proposal's single row is used directly, with no class-indexed gather. -/
theorem c4_fg_logit_row_selection (K : ℕ) (labels : List ℕ)
    (labelLogits fgBoxes : List (List ℚ)) (fgBoxLogits : List (List (List ℚ)))
    (out : BoxClassLossOut)
    (h : boxclass_losses K labels labelLogits fgBoxes fgBoxLogits = some out) :
    (1 < K → ∀ i, i < out.fgInds.length →
      out.fgBoxLogitsSel.getD i [] =
        (fgBoxLogits.getD i []).getD (labels.getD (out.fgInds.getD i 0) 0) []) ∧
    ((K = 1 ∧ ∀ r ∈ fgBoxLogits, r.length = 1) →
      ∀ i, i < fgBoxLogits.length →
        out.fgBoxLogitsSel.getD i [] = (fgBoxLogits.getD i []).getD 0 []) := by
  simp only [boxclass_losses, Option.bind_eq_some, Option.some.injEq] at h
  obtain ⟨fgLabels, hfgl, sel, hsel, fgRows, hrows, corFg, hcor, hout⟩ := h
  subst hout
  have hfgl2 : fgLabels = (whereIdx (fun l => decide (0 < l)) labels).map
      fun i => labels.getD i default := gather_eq_some hfgl
  constructor
  · intro hK i hi
    rw [if_pos hK] at hsel
    have hsel2 := gatherND2_eq_some hsel
    have hlabLen : fgLabels.length =
        (whereIdx (fun l => decide (0 < l)) labels).length := by
      rw [hfgl2, List.length_map]
    dsimp only at hi ⊢
    rw [hsel2]
    have hzl : i < ((List.range
        (whereIdx (fun l => decide (0 < l)) labels).length).zip fgLabels).length := by
      rw [List.length_zip, List.length_range, hlabLen, Nat.min_self]
      exact hi
    rw [getD_map_lt _ _ i (0, 0) [] hzl]
    have hgz : ((List.range (whereIdx (fun l => decide (0 < l)) labels).length).zip
        fgLabels).getD i (0, 0) = (i, fgLabels.getD i 0) := by
      have hg := getD_zip_range fgLabels i (by rw [hlabLen]; exact hi)
      rw [hlabLen] at hg
      exact hg
    rw [hgz]
    dsimp only
    rw [hfgl2, getD_map_lt _ _ i 0 0 hi]
    rfl
  · rintro ⟨hK1, hrows1⟩ i hi
    subst hK1
    rw [if_neg (by omega)] at hsel
    have hsel2 : sel = fgBoxLogits.map List.join := by
      simpa using hsel.symm
    rw [hsel2, getD_map_lt _ _ i [] [] hi]
    have hmem : fgBoxLogits.getD i [] ∈ fgBoxLogits := by
      rw [List.getD_eq_getElem _ _ hi]
      exact fgBoxLogits.getElem_mem hi
    obtain ⟨a, ha⟩ := List.length_eq_one.mp (hrows1 _ hmem)
    rw [ha]
    simp

theorem c4_witness :
    (boxclass_losses 2 [1, 0] [[0, 1], [1, 0]] [[2, 2, 2, 2]]
        [[[0, 0, 0, 0], [2, 2, 2, 2]]] =
      some ⟨[0], [[2, 2, 2, 2]], 1, 0, 1, 0⟩) ∧
    ([[2, 2, 2, 2]] : List (List ℚ)).getD 0 [] =
      (([[[0, 0, 0, 0], [2, 2, 2, 2]]] : List (List (List ℚ))).getD 0 []).getD
        (([1, 0] : List ℕ).getD (([0] : List ℕ).getD 0 0) 0) [] := by
  have h : boxclass_losses 2 [1, 0] [[0, 1], [1, 0]] [[2, 2, 2, 2]]
      [[[0, 0, 0, 0], [2, 2, 2, 2]]] =
      some ⟨[0], [[2, 2, 2, 2]], 1, 0, 1, 0⟩ := by with_unfolding_all rfl
  exact ⟨h, (c4_fg_logit_row_selection 2 [1, 0] [[0, 1], [1, 0]] [[2, 2, 2, 2]]
    [[[0, 0, 0, 0], [2, 2, 2, 2]]] ⟨[0], [[2, 2, 2, 2]], 1, 0, 1, 0⟩ h).1
    (by norm_num) 0 (by simp)⟩

/- ### boxclass_predictions (source lines 90-126) -/

/-- `tf.transpose(t, [1, 0, ...])` followed by dropping row 0, on a tensor
whose second input axis has static size `numClass` (the source asserts this
shape): row `c` of the result is column `c + 1` of the input, so the
background column 0 is gone.  For `scores` the source slices columns `1:`
first and then transposes, which is the same operation. -/
def transposeDropBg [Inhabited α] (numClass : ℕ) (m : List (List α)) :
    List (List α) :=
  ((List.range numClass).drop 1).map fun c => m.map fun row => row.getD c default

/-- `tf.reduce_max` over all elements.  TF returns `-inf` on an empty tensor;
no claim exercises that case and the embedding returns 0 there. -/
def reduceMaxD (l : List ℚ) : ℚ :=
  match l with
  | [] => 0
  | x :: xs => xs.foldl max x

/-- `max_coord = tf.reduce_max(boxes)` (source line 109), over the transposed,
background-dropped box tensor. -/
def maxCoord (catBoxes : List (List (List ℚ))) : ℚ :=
  reduceMaxD catBoxes.join.join

/-- `tf.where` on a rank-2 boolean mask: the (row, column) index pairs, in
row-major order, at which the mask holds. -/
def whereIdx2 (p : ℚ → Bool) (m : List (List ℚ)) : List (ℕ × ℕ) :=
  (m.enum.map fun cr => cr.2.enum.filterMap fun bs =>
    if p bs.2 then some (cr.1, bs.1) else none).join

/-- `filtered_ids = tf.where(scores > cfg.TEST.RESULT_SCORE_THRESH)` (source
line 110) over the transposed, background-dropped score matrix: the strict
score-thresholded (category, box) candidate pairs. -/
def predictionCandidates (numClass : ℕ) (scoreThresh : ℚ)
    (scores : List (List ℚ)) : List (ℕ × ℕ) :=
  whereIdx2 (fun s => decide (scoreThresh < s)) (transposeDropBg numClass scores)

/-- `tf.gather_nd` with the index pairs produced by `tf.where`, which are in
range by construction (hence no `Option` here). -/
def gatherPairs [Inhabited α] (t : List (List α)) (idx : List (ℕ × ℕ)) :
    List α :=
  idx.map fun ic => (t.getD ic.1 []).getD ic.2 default

/-- The pairwise overlap test of `tf.image.non_max_suppression`: coordinates
are canonicalized with min/max, a degenerate box never suppresses, and
otherwise intersection-over-union is returned. -/
def iouTF (b1 b2 : List ℚ) : ℚ :=
  let ylo1 := min (b1.getD 0 0) (b1.getD 2 0)
  let xlo1 := min (b1.getD 1 0) (b1.getD 3 0)
  let yhi1 := max (b1.getD 0 0) (b1.getD 2 0)
  let xhi1 := max (b1.getD 1 0) (b1.getD 3 0)
  let ylo2 := min (b2.getD 0 0) (b2.getD 2 0)
  let xlo2 := min (b2.getD 1 0) (b2.getD 3 0)
  let yhi2 := max (b2.getD 0 0) (b2.getD 2 0)
  let xhi2 := max (b2.getD 1 0) (b2.getD 3 0)
  let area1 := (yhi1 - ylo1) * (xhi1 - xlo1)
  let area2 := (yhi2 - ylo2) * (xhi2 - xlo2)
  if area1 ≤ 0 ∨ area2 ≤ 0 then 0
  else
    let ih := max 0 (min yhi1 yhi2 - max ylo1 ylo2)
    let iw := max 0 (min xhi1 xhi2 - max xlo1 xlo2)
    ih * iw / (area1 + area2 - ih * iw)

/-- One step of greedy NMS over candidates `(index, box, score)`: keep the
candidate when the cap is not reached and no kept box overlaps it more than
the threshold (`tf` suppresses exactly when `iou > iou_threshold`). -/
def nmsStep (iouT : ℚ) (cap : ℕ) (kept : List (ℕ × List ℚ × ℚ))
    (c : ℕ × List ℚ × ℚ) : List (ℕ × List ℚ × ℚ) :=
  if kept.length < cap ∧ ∀ k ∈ kept, iouTF k.2.1 c.2.1 ≤ iouT then
    kept ++ [c] else kept

/-- Insertion into a descending-score list; a candidate passes over strictly
higher scores only, so equal scores keep their original order (the stable
tie-break of spec §4.6 step 4). -/
def insertByScore (c : ℕ × List ℚ × ℚ) :
    List (ℕ × List ℚ × ℚ) → List (ℕ × List ℚ × ℚ)
  | [] => [c]
  | d :: ds => if c.2.2 < d.2.2 then d :: insertByScore c ds else c :: d :: ds

/-- Stable sort by descending score. -/
def sortByScore (l : List (ℕ × List ℚ × ℚ)) : List (ℕ × List ℚ × ℚ) :=
  l.foldr insertByScore []

/-- `tf.image.non_max_suppression` (source lines 115-120): sort the candidates
by descending score, then greedily keep each candidate that no already-kept
box overlaps above `iouT`, stopping at `cap` kept boxes; the result is the
list of selected indices into the input arrays, in selection order. -/
def nonMaxSuppression (iouT : ℚ) (cap : ℕ) (boxes : List (List ℚ))
    (scores : List ℚ) : List ℕ :=
  ((sortByScore ((boxes.zip scores).enum.map fun p => (p.1, p.2.1, p.2.2))).foldl
    (nmsStep iouT cap) []).map Prod.fst

/-- The four outputs of `boxclass_predictions`. -/
structure PredOut where
  boxes : List (List ℚ)
  scores : List ℚ
  labels : List ℕ
  boxIds : List ℕ
deriving DecidableEq

/-- Embedding of `boxclass_predictions` (source lines 90-126).  `numClass` is
`cfg.DATA.NUM_CLASS`, `scoreThresh` is `cfg.TEST.RESULT_SCORE_THRESH`, `cap`
is `cfg.TEST.RESULTS_PER_IM` and `iouThresh` is `cfg.TEST.FRCNN_NMS_THRESH`. -/
def boxclass_predictions (numClass : ℕ) (scoreThresh iouThresh : ℚ) (cap : ℕ)
    (boxes : List (List (List ℚ))) (scores : List (List ℚ)) : PredOut :=
  let catBoxes := transposeDropBg numClass boxes
  let mc := maxCoord catBoxes
  let ids := predictionCandidates numClass scoreThresh scores
  let filteredBoxes := gatherPairs catBoxes ids
  let filteredScores := gatherPairs (transposeDropBg numClass scores) ids
  let clsPerBox := ids.map Prod.fst
  let offsets := clsPerBox.map fun (c : ℕ) => (c : ℚ) * (mc + 1)
  let offsetBoxes := List.zipWith (fun b o => b.map fun x => x + o)
    filteredBoxes offsets
  let selection := nonMaxSuppression iouThresh cap offsetBoxes filteredScores
  { boxes := selection.map fun j => filteredBoxes.getD j []
    scores := selection.map fun j => filteredScores.getD j 0
    labels := selection.map fun j => clsPerBox.getD j 0 + 1
    boxIds := selection.map fun j => (ids.getD j (0, 0)).2 }

theorem rat_default_eq : (default : ℚ) = 0 := rfl

theorem getD_mem_of_lt [Inhabited α] {l : List α} {i : ℕ} (d : α)
    (h : i < l.length) : l.getD i d ∈ l := by
  rw [List.getD_eq_getElem _ _ h]
  exact l.getElem_mem h

theorem mem_enum_getD [Inhabited α] (l : List α) (d : α) (i : ℕ) (x : α) :
    (i, x) ∈ l.enum ↔ i < l.length ∧ l.getD i d = x := by
  rw [List.mem_enum_iff_getElem?]
  constructor
  · intro h
    obtain ⟨hlt, he⟩ := List.getElem?_eq_some.mp h
    exact ⟨hlt, by rw [List.getD_eq_getElem _ _ hlt]; exact he⟩
  · rintro ⟨hlt, rfl⟩
    rw [List.getD_eq_getElem _ _ hlt, List.getElem?_eq_getElem hlt]

theorem drop_one_range (n : ℕ) :
    (List.range n).drop 1 = (List.range (n - 1)).map Nat.succ := by
  cases n with
  | zero => simp
  | succ m => rw [List.range_succ_eq_map]; simp

theorem transposeDropBg_eq [Inhabited α] (numClass : ℕ) (m : List (List α)) :
    transposeDropBg numClass m = (List.range (numClass - 1)).map
      fun j => m.map fun row => row.getD (j + 1) default := by
  rw [transposeDropBg, drop_one_range, List.map_map]
  rfl

theorem getD_range (n c : ℕ) (h : c < n) : (List.range n).getD c 0 = c := by
  rw [List.getD_eq_getElem _ _ (by simpa using h), List.getElem_range]

theorem whereIdx2_nil_of_none {p : ℚ → Bool} {m : List (List ℚ)}
    (h : ∀ row ∈ m, ∀ x ∈ row, p x = false) : whereIdx2 p m = [] := by
  simp only [whereIdx2, List.join_eq_nil_iff, List.mem_map]
  rintro sub ⟨⟨j, row⟩, hmem, rfl⟩
  rw [List.filterMap_eq_nil]
  rintro ⟨k, x⟩ hkx
  have hrow : row ∈ m := by
    obtain ⟨hlt, heq⟩ := List.getElem?_eq_some.mp (List.mem_enum_iff_getElem?.mp hmem)
    have hm := m.getElem_mem hlt
    rwa [heq] at hm
  have hx : x ∈ row := by
    obtain ⟨hlt, heq⟩ := List.getElem?_eq_some.mp (List.mem_enum_iff_getElem?.mp hkx)
    have hm := row.getElem_mem hlt
    rwa [heq] at hm
  simp [h row hrow x hx]

theorem whereIdx2_mem (p : ℚ → Bool) (m : List (List ℚ)) (c b : ℕ) :
    (c, b) ∈ whereIdx2 p m ↔
      c < m.length ∧ b < (m.getD c []).length ∧ p ((m.getD c []).getD b 0) := by
  simp only [whereIdx2, List.mem_join, List.mem_map]
  constructor
  · rintro ⟨sub, ⟨⟨j, row⟩, hmem, rfl⟩, hsub⟩
    simp only [List.mem_filterMap] at hsub
    obtain ⟨⟨k, x⟩, hkx, hif⟩ := hsub
    by_cases hp : p x
    · rw [if_pos hp] at hif
      simp only [Option.some.injEq, Prod.mk.injEq] at hif
      obtain ⟨rfl, rfl⟩ := hif
      obtain ⟨hjl, hjrow⟩ := (mem_enum_getD m [] j row).mp hmem
      obtain ⟨hkl, hkx2⟩ := (mem_enum_getD row 0 k x).mp hkx
      refine ⟨hjl, ?_, ?_⟩
      · rw [hjrow]; exact hkl
      · rw [hjrow, hkx2]; exact hp
    · rw [if_neg hp] at hif
      cases hif
  · rintro ⟨hc, hb, hp⟩
    refine ⟨(m.getD c []).enum.filterMap fun bs =>
        if p bs.2 then some (c, bs.1) else none,
      ⟨(c, m.getD c []), ?_, rfl⟩, ?_⟩
    · exact (mem_enum_getD m [] c (m.getD c [])).mpr ⟨hc, rfl⟩
    · rw [List.mem_filterMap]
      refine ⟨(b, (m.getD c []).getD b 0), ?_, by rw [if_pos hp]⟩
      exact (mem_enum_getD _ 0 b _).mpr ⟨hb, rfl⟩

theorem transposeDropBg_getD (numClass : ℕ) (scores : List (List ℚ)) (c b : ℕ)
    (hc : c + 1 < numClass) (hb : b < scores.length) :
    ((transposeDropBg numClass scores).getD c []).getD b 0 =
      (scores.getD b []).getD (c + 1) 0 := by
  rw [transposeDropBg_eq,
    getD_map_lt _ _ c 0 [] (by rw [List.length_range]; omega),
    getD_range _ _ (by omega), getD_map_lt _ _ b [] 0 hb, rat_default_eq]

theorem transposeDropBg_length [Inhabited α] (numClass : ℕ) (m : List (List α)) :
    (transposeDropBg numClass m).length = numClass - 1 := by
  rw [transposeDropBg_eq, List.length_map, List.length_range]

theorem transposeDropBg_row_length [Inhabited α] (numClass : ℕ)
    (m : List (List α)) (c : ℕ) (hc : c + 1 < numClass) :
    ((transposeDropBg numClass m).getD c []).length = m.length := by
  rw [transposeDropBg_eq,
    getD_map_lt _ _ c 0 [] (by rw [List.length_range]; omega), List.length_map]

theorem predictionCandidates_mem (numClass : ℕ) (t : ℚ)
    (scores : List (List ℚ)) (c b : ℕ) :
    (c, b) ∈ predictionCandidates numClass t scores ↔
      c + 1 < numClass ∧ b < scores.length ∧
        t < (scores.getD b []).getD (c + 1) 0 := by
  rw [predictionCandidates, whereIdx2_mem]
  constructor
  · rintro ⟨hc, hb, hp⟩
    rw [transposeDropBg_length] at hc
    have hc2 : c + 1 < numClass := by omega
    rw [transposeDropBg_row_length _ _ _ hc2] at hb
    rw [transposeDropBg_getD _ _ _ _ hc2 hb] at hp
    exact ⟨hc2, hb, by simpa using hp⟩
  · rintro ⟨hc, hb, hp⟩
    refine ⟨by rw [transposeDropBg_length]; omega,
      by rw [transposeDropBg_row_length _ _ _ hc]; exact hb, ?_⟩
    rw [transposeDropBg_getD _ _ _ _ hc hb]
    simpa using hp

/-- C8: when every non-background score is at or below the threshold, the
candidate set is empty, NMS runs on the empty input, and `boxclass_predictions`
returns empty boxes, scores, labels and source-row indices, with no failure
path anywhere in the pipeline. -/
theorem c8_below_threshold_empty_output (numClass : ℕ)
    (scoreThresh iouThresh : ℚ) (cap : ℕ) (boxes : List (List (List ℚ)))
    (scores : List (List ℚ))
    (h : ∀ row ∈ scores, ∀ c, 1 ≤ c → c < numClass → row.getD c 0 ≤ scoreThresh) :
    boxclass_predictions numClass scoreThresh iouThresh cap boxes scores =
      ⟨[], [], [], []⟩ := by
  have hids : predictionCandidates numClass scoreThresh scores = [] := by
    rw [predictionCandidates]
    apply whereIdx2_nil_of_none
    intro row hrow x hx
    rw [transposeDropBg_eq] at hrow
    obtain ⟨j, hj, rfl⟩ := List.mem_map.mp hrow
    obtain ⟨srow, hsrow, rfl⟩ := List.mem_map.mp hx
    have hjlt := List.mem_range.mp hj
    have hle := h srow hsrow (j + 1) (by omega) (by omega)
    rw [rat_default_eq]
    simpa using hle
  simp [boxclass_predictions, hids, gatherPairs, nonMaxSuppression, sortByScore]

theorem c8_witness :
    (∀ row ∈ [[(9 : ℚ)/10, 1/4, 1/2]], ∀ c, 1 ≤ c → c < 3 →
      row.getD c 0 ≤ (1 : ℚ)/2) ∧
    boxclass_predictions 3 ((1 : ℚ)/2) ((1 : ℚ)/2) 100
      [[[0, 0, 1, 1], [2, 2, 3, 3], [4, 4, 5, 5]]] [[(9 : ℚ)/10, 1/4, 1/2]] =
      ⟨[], [], [], []⟩ := by
  have h : ∀ row ∈ [[(9 : ℚ)/10, 1/4, 1/2]], ∀ c, 1 ≤ c → c < 3 →
      row.getD c 0 ≤ (1 : ℚ)/2 := by
    intro row hrow c h1 h2
    rw [List.mem_singleton] at hrow
    subst hrow
    interval_cases c
    · norm_num
    · norm_num
  exact ⟨h, c8_below_threshold_empty_output 3 ((1 : ℚ)/2) ((1 : ℚ)/2) 100
    [[[0, 0, 1, 1], [2, 2, 3, 3], [4, 4, 5, 5]]] [[(9 : ℚ)/10, 1/4, 1/2]] h⟩

theorem sortByScore_cons (c : ℕ × List ℚ × ℚ) (l : List (ℕ × List ℚ × ℚ)) :
    sortByScore (c :: l) = insertByScore c (sortByScore l) := rfl

theorem insertByScore_mem (c x : ℕ × List ℚ × ℚ) (l : List (ℕ × List ℚ × ℚ)) :
    x ∈ insertByScore c l ↔ x = c ∨ x ∈ l := by
  induction l with
  | nil => simp [insertByScore]
  | cons d ds ih =>
    rw [insertByScore]
    split
    · rw [List.mem_cons, ih, List.mem_cons]
      tauto
    · rw [List.mem_cons, List.mem_cons]

theorem sortByScore_mem (x : ℕ × List ℚ × ℚ) (l : List (ℕ × List ℚ × ℚ)) :
    x ∈ sortByScore l ↔ x ∈ l := by
  induction l with
  | nil => simp [sortByScore]
  | cons d ds ih =>
    rw [sortByScore_cons, insertByScore_mem, ih, List.mem_cons]

theorem nmsFold_mem {iouT : ℚ} {cap : ℕ} {l : List (ℕ × List ℚ × ℚ)}
    {init : List (ℕ × List ℚ × ℚ)} {x : ℕ × List ℚ × ℚ}
    (h : x ∈ l.foldl (nmsStep iouT cap) init) : x ∈ init ∨ x ∈ l := by
  induction l generalizing init with
  | nil => exact Or.inl (by simpa using h)
  | cons c cs ih =>
    rw [List.foldl_cons] at h
    rcases ih h with h2 | h2
    · rw [nmsStep] at h2
      split at h2
      · rcases List.mem_append.mp h2 with h3 | h3
        · exact Or.inl h3
        · rw [List.mem_singleton] at h3
          exact Or.inr (h3 ▸ List.mem_cons_self c cs)
      · exact Or.inl h2
    · exact Or.inr (List.mem_cons_of_mem _ h2)

theorem nonMaxSuppression_mem_lt {iouT : ℚ} {cap : ℕ} {boxes : List (List ℚ)}
    {scores : List ℚ} {j : ℕ} (h : j ∈ nonMaxSuppression iouT cap boxes scores) :
    j < boxes.length ∧ j < scores.length := by
  rw [nonMaxSuppression] at h
  obtain ⟨x, hx, hj⟩ := List.mem_map.mp h
  rcases nmsFold_mem hx with h2 | h2
  · simp at h2
  · rw [sortByScore_mem] at h2
    obtain ⟨⟨i, bs⟩, hmem, heq⟩ := List.mem_map.mp h2
    obtain ⟨hlt, _⟩ :=
      List.getElem?_eq_some.mp (List.mem_enum_iff_getElem?.mp hmem)
    have hji : j = i := by rw [← hj, ← heq]
    rw [List.length_zip] at hlt
    subst hji
    exact ⟨lt_of_lt_of_le hlt (min_le_left _ _),
      lt_of_lt_of_le hlt (min_le_right _ _)⟩

theorem gatherPairs_length [Inhabited α] (t : List (List α))
    (idx : List (ℕ × ℕ)) : (gatherPairs t idx).length = idx.length := by
  rw [gatherPairs, List.length_map]

/-- C5: the Postprocessor candidate set contains exactly the (category, box)
pairs whose background-dropped score strictly exceeds the threshold (category
`c` stands for original class `c + 1`), and every final output triple
originates from such a candidate, so its score strictly exceeds the threshold
and entries at or below it appear in neither the NMS input nor the output. -/
theorem c5_postprocessor_strict_threshold (numClass : ℕ)
    (scoreThresh iouThresh : ℚ) (cap : ℕ) (boxes : List (List (List ℚ)))
    (scores : List (List ℚ)) :
    (∀ c b : ℕ, (c, b) ∈ predictionCandidates numClass scoreThresh scores ↔
      (c + 1 < numClass ∧ b < scores.length ∧
        scoreThresh < (scores.getD b []).getD (c + 1) 0)) ∧
    (∀ s ∈ (boxclass_predictions numClass scoreThresh iouThresh cap boxes
        scores).scores, scoreThresh < s) ∧
    (∀ k, k < (boxclass_predictions numClass scoreThresh iouThresh cap boxes
        scores).labels.length →
      ((boxclass_predictions numClass scoreThresh iouThresh cap boxes
          scores).labels.getD k 0 - 1,
       (boxclass_predictions numClass scoreThresh iouThresh cap boxes
          scores).boxIds.getD k 0) ∈
        predictionCandidates numClass scoreThresh scores) := by
  refine ⟨predictionCandidates_mem numClass scoreThresh scores, ?_, ?_⟩
  · intro s hs
    simp only [boxclass_predictions] at hs
    obtain ⟨j, hjsel, rfl⟩ := List.mem_map.mp hs
    have hlen := (nonMaxSuppression_mem_lt hjsel).2
    rw [gatherPairs_length] at hlen
    rw [gatherPairs, getD_map_lt _ _ j (0, 0) 0 hlen]
    rcases hq : (predictionCandidates numClass scoreThresh scores).getD j (0, 0)
      with ⟨c, b⟩
    have hmem : (c, b) ∈ predictionCandidates numClass scoreThresh scores := by
      rw [← hq]
      exact getD_mem_of_lt _ hlen
    obtain ⟨hc, hb, hpv⟩ := (predictionCandidates_mem _ _ _ _ _).mp hmem
    dsimp only
    rw [rat_default_eq, transposeDropBg_getD _ _ _ _ hc hb]
    exact hpv
  · intro k hk
    simp only [boxclass_predictions] at hk ⊢
    rw [List.length_map] at hk
    rw [getD_map_lt _ _ k 0 0 hk, getD_map_lt _ _ k 0 0 hk]
    have hjmem := getD_mem_of_lt 0 hk
    have hlen := (nonMaxSuppression_mem_lt hjmem).2
    rw [gatherPairs_length] at hlen
    rw [getD_map_lt Prod.fst _ _ (0, 0) 0 hlen]
    simpa using getD_mem_of_lt (0, 0) hlen

/- ### Monotonicity machinery for the Postprocessor

The greedy NMS decisions depend only on the (box, score) component of each
candidate, never on its index, so the selection length factors through the
projection `Prod.snd`.  At that level the score-thresholded candidate list for
a higher threshold is a filtered sublist, stable sorting commutes with such a
filter, and for a score-monotone filter the surviving candidates form a prefix
of the sorted list, which greedy NMS can only extend. -/

def nmsStepP (iouT : ℚ) (cap : ℕ) (kept : List (List ℚ × ℚ))
    (c : List ℚ × ℚ) : List (List ℚ × ℚ) :=
  if kept.length < cap ∧ ∀ k ∈ kept, iouTF k.1 c.1 ≤ iouT then
    kept ++ [c] else kept

def insertByScoreP (c : List ℚ × ℚ) :
    List (List ℚ × ℚ) → List (List ℚ × ℚ)
  | [] => [c]
  | d :: ds => if c.2 < d.2 then d :: insertByScoreP c ds else c :: d :: ds

def sortByScoreP (l : List (List ℚ × ℚ)) : List (List ℚ × ℚ) :=
  l.foldr insertByScoreP []

theorem insertByScore_map_snd (c : ℕ × List ℚ × ℚ)
    (l : List (ℕ × List ℚ × ℚ)) :
    (insertByScore c l).map Prod.snd = insertByScoreP c.2 (l.map Prod.snd) := by
  induction l with
  | nil => rfl
  | cons d ds ih =>
    simp only [insertByScore, insertByScoreP, List.map_cons]
    by_cases h : c.2.2 < d.2.2
    · rw [if_pos h, if_pos h, List.map_cons, ih]
    · rw [if_neg h, if_neg h, List.map_cons, List.map_cons]

theorem sortByScore_map_snd (l : List (ℕ × List ℚ × ℚ)) :
    (sortByScore l).map Prod.snd = sortByScoreP (l.map Prod.snd) := by
  induction l with
  | nil => rfl
  | cons c cs ih =>
    rw [sortByScore_cons, insertByScore_map_snd, ih, List.map_cons]
    rfl

theorem nmsStep_map_snd (iouT : ℚ) (cap : ℕ) (init : List (ℕ × List ℚ × ℚ))
    (c : ℕ × List ℚ × ℚ) :
    (nmsStep iouT cap init c).map Prod.snd =
      nmsStepP iouT cap (init.map Prod.snd) c.2 := by
  rw [nmsStep, nmsStepP]
  have hcond : (init.length < cap ∧ ∀ k ∈ init, iouTF k.2.1 c.2.1 ≤ iouT) ↔
      ((init.map Prod.snd).length < cap ∧
        ∀ k ∈ init.map Prod.snd, iouTF k.1 c.2.1 ≤ iouT) := by
    rw [List.length_map]
    constructor
    · rintro ⟨h1, h2⟩
      refine ⟨h1, ?_⟩
      rintro k hk
      obtain ⟨k0, hk0, rfl⟩ := List.mem_map.mp hk
      exact h2 k0 hk0
    · rintro ⟨h1, h2⟩
      exact ⟨h1, fun k hk => h2 k.2 (List.mem_map_of_mem _ hk)⟩
  by_cases h : init.length < cap ∧ ∀ k ∈ init, iouTF k.2.1 c.2.1 ≤ iouT
  · rw [if_pos h, if_pos (hcond.mp h), List.map_append, List.map_singleton]
  · rw [if_neg h, if_neg (fun hc => h (hcond.mpr hc))]

theorem nmsFold_map_snd (iouT : ℚ) (cap : ℕ) (l : List (ℕ × List ℚ × ℚ))
    (init : List (ℕ × List ℚ × ℚ)) :
    (l.foldl (nmsStep iouT cap) init).map Prod.snd =
      (l.map Prod.snd).foldl (nmsStepP iouT cap) (init.map Prod.snd) := by
  induction l generalizing init with
  | nil => rfl
  | cons c cs ih =>
    rw [List.foldl_cons, List.map_cons, List.foldl_cons, ih, nmsStep_map_snd]

theorem nms_length_eq (iouT : ℚ) (cap : ℕ) (boxes : List (List ℚ))
    (scores : List ℚ) :
    (nonMaxSuppression iouT cap boxes scores).length =
      ((sortByScoreP (boxes.zip scores)).foldl (nmsStepP iouT cap) []).length := by
  rw [nonMaxSuppression, List.length_map]
  have h1 := congrArg List.length (nmsFold_map_snd iouT cap
    (sortByScore ((boxes.zip scores).enum.map fun p => (p.1, p.2.1, p.2.2))) [])
  rw [List.length_map] at h1
  rw [h1, List.map_nil, sortByScore_map_snd, List.map_map]
  have h2 : ((fun p : ℕ × List ℚ × ℚ => p.2) ∘
      fun p : ℕ × (List ℚ × ℚ) => (p.1, p.2.1, p.2.2)) =
      fun p : ℕ × (List ℚ × ℚ) => p.2 := by
    funext p
    rfl
  rw [h2, List.enum_map_snd]

/-- Descending-score sortedness of a pair-level candidate list. -/
def ScoreSortedP (l : List (List ℚ × ℚ)) : Prop :=
  l.Pairwise fun a b => b.2 ≤ a.2

theorem insertByScoreP_perm (c : List ℚ × ℚ) (l : List (List ℚ × ℚ)) :
    List.Perm (insertByScoreP c l) (c :: l) := by
  induction l with
  | nil => rfl
  | cons d ds ih =>
    rw [insertByScoreP]
    split
    · exact ((ih.cons d).trans (List.Perm.swap c d ds))
    · rfl

theorem insertByScoreP_sorted (c : List ℚ × ℚ) (l : List (List ℚ × ℚ))
    (h : ScoreSortedP l) : ScoreSortedP (insertByScoreP c l) := by
  induction l with
  | nil => simp [insertByScoreP, ScoreSortedP]
  | cons d ds ih =>
    rw [ScoreSortedP, List.pairwise_cons] at h
    obtain ⟨hd, hds⟩ := h
    rw [insertByScoreP]
    split
    · rename_i hlt
      rw [ScoreSortedP, List.pairwise_cons]
      constructor
      · intro x hx
        rcases List.mem_cons.mp ((insertByScoreP_perm c ds).mem_iff.mp hx)
          with h2 | h2
        · subst h2
          exact le_of_lt hlt
        · exact hd x h2
      · exact ih hds
    · rename_i hge
      rw [ScoreSortedP, List.pairwise_cons]
      constructor
      · intro x hx
        rcases List.mem_cons.mp hx with h2 | h2
        · subst h2
          exact le_of_not_lt hge
        · exact le_trans (hd x h2) (le_of_not_lt hge)
      · exact List.Pairwise.cons hd hds

theorem sortByScoreP_sorted (l : List (List ℚ × ℚ)) :
    ScoreSortedP (sortByScoreP l) := by
  induction l with
  | nil => simp [sortByScoreP, ScoreSortedP]
  | cons c cs ih => exact insertByScoreP_sorted c _ ih

theorem filter_nil_of_head_fails (q : List ℚ × ℚ → Bool)
    (hq : ∀ a b : List ℚ × ℚ, b.2 ≤ a.2 → q b = true → q a = true)
    (d : List ℚ × ℚ) (ds : List (List ℚ × ℚ))
    (hd : ∀ x ∈ ds, x.2 ≤ d.2) (hqd : ¬ q d = true) :
    ds.filter q = [] := by
  rw [List.filter_eq_nil_iff]
  intro x hx hqx
  exact hqd (hq d x (hd x hx) hqx)

theorem filter_insertByScoreP (q : List ℚ × ℚ → Bool)
    (hq : ∀ a b : List ℚ × ℚ, b.2 ≤ a.2 → q b = true → q a = true)
    (c : List ℚ × ℚ) (l : List (List ℚ × ℚ)) (h : ScoreSortedP l) :
    (insertByScoreP c l).filter q =
      if q c then insertByScoreP c (l.filter q) else l.filter q := by
  induction l with
  | nil =>
    rw [insertByScoreP, List.filter_nil]
    by_cases hc : q c
    · rw [if_pos hc, List.filter_cons, if_pos hc, List.filter_nil]
      rfl
    · rw [if_neg hc, List.filter_cons, if_neg hc, List.filter_nil]
  | cons d ds ih =>
    rw [ScoreSortedP, List.pairwise_cons] at h
    obtain ⟨hd, hds⟩ := h
    rw [insertByScoreP]
    by_cases hlt : c.2 < d.2
    · rw [if_pos hlt, List.filter_cons]
      by_cases hqd : q d
      · rw [if_pos hqd, ih hds]
        by_cases hqc : q c
        · rw [if_pos hqc, if_pos hqc, List.filter_cons, if_pos hqd,
            insertByScoreP, if_pos hlt]
        · rw [if_neg hqc, if_neg hqc, List.filter_cons, if_pos hqd]
      · rw [if_neg hqd, ih hds, List.filter_cons, if_neg hqd]
    · rw [if_neg hlt, List.filter_cons]
      by_cases hqc : q c
      · rw [if_pos hqc, if_pos hqc, List.filter_cons]
        by_cases hqd : q d
        · rw [if_pos hqd, insertByScoreP, if_neg hlt]
        · rw [if_neg hqd, filter_nil_of_head_fails q hq d ds hd hqd,
            insertByScoreP]
      · rw [if_neg hqc, if_neg hqc, List.filter_cons]

theorem filter_sortByScoreP (q : List ℚ × ℚ → Bool)
    (hq : ∀ a b : List ℚ × ℚ, b.2 ≤ a.2 → q b = true → q a = true)
    (l : List (List ℚ × ℚ)) :
    sortByScoreP (l.filter q) = (sortByScoreP l).filter q := by
  induction l with
  | nil => rfl
  | cons c cs ih =>
    have hc : sortByScoreP (c :: cs) = insertByScoreP c (sortByScoreP cs) := rfl
    rw [List.filter_cons, hc,
      filter_insertByScoreP q hq c (sortByScoreP cs) (sortByScoreP_sorted cs),
      ← ih]
    by_cases hqc : q c
    · rw [if_pos hqc, if_pos hqc]
      rfl
    · rw [if_neg hqc, if_neg hqc]

theorem sorted_partition (q : List ℚ × ℚ → Bool)
    (hq : ∀ a b : List ℚ × ℚ, b.2 ≤ a.2 → q b = true → q a = true)
    (m : List (List ℚ × ℚ)) (h : ScoreSortedP m) :
    m = m.filter q ++ m.filter fun x => !q x := by
  induction m with
  | nil => rfl
  | cons d ds ih =>
    rw [ScoreSortedP, List.pairwise_cons] at h
    obtain ⟨hd, hds⟩ := h
    by_cases hqd : q d
    · rw [List.filter_cons, List.filter_cons, if_pos hqd]
      rw [if_neg (by simp [hqd])]
      rw [List.cons_append]
      exact congrArg _ (ih hds)
    · rw [List.filter_cons, List.filter_cons, if_neg hqd,
        if_pos (by simp [Bool.not_eq_true] at hqd ⊢; exact hqd),
        filter_nil_of_head_fails q hq d ds hd hqd, List.nil_append]
      congr 1
      symm
      rw [List.filter_eq_self]
      intro x hx
      simp only [Bool.not_eq_true']
      by_cases hqx : q x = true
      · exact absurd (hq d x (hd x hx) hqx) hqd
      · simpa using hqx

theorem nmsStepP_length_le (iouT : ℚ) (cap : ℕ) (kept : List (List ℚ × ℚ))
    (c : List ℚ × ℚ) : kept.length ≤ (nmsStepP iouT cap kept c).length := by
  rw [nmsStepP]
  split
  · rw [List.length_append]
    omega
  · exact le_refl _

theorem foldl_nmsStepP_length_le (iouT : ℚ) (cap : ℕ)
    (l : List (List ℚ × ℚ)) (init : List (List ℚ × ℚ)) :
    init.length ≤ (l.foldl (nmsStepP iouT cap) init).length := by
  induction l generalizing init with
  | nil => exact le_refl _
  | cons c cs ih =>
    rw [List.foldl_cons]
    exact le_trans (nmsStepP_length_le iouT cap init c) (ih _)

theorem zipWith_map_same (g : β → γ → δ) (f1 : α → β) (f2 : α → γ)
    (l : List α) :
    List.zipWith g (l.map f1) (l.map f2) = l.map fun x => g (f1 x) (f2 x) := by
  induction l with
  | nil => rfl
  | cons a t ih => simp [ih]

theorem zip_map_same (f1 : α → β) (f2 : α → γ) (l : List α) :
    (l.map f1).zip (l.map f2) = l.map fun x => (f1 x, f2 x) :=
  zipWith_map_same Prod.mk f1 f2 l

theorem filter_join (q : α → Bool) (L : List (List α)) :
    L.join.filter q = (L.map fun l => l.filter q).join := by
  induction L with
  | nil => rfl
  | cons l ls ih => simp [List.filter_append, ih]

theorem filterMap_if_filter (j : ℕ) (row : List ℚ) (p1 p2 : ℚ → Bool)
    (himp : ∀ s, p2 s = true → p1 s = true) (l : List (ℕ × ℚ))
    (hl : ∀ kx ∈ l, row.getD kx.1 0 = kx.2) :
    (l.filterMap fun bs => if p2 bs.2 then some (j, bs.1) else none) =
      (l.filterMap fun bs => if p1 bs.2 then some (j, bs.1) else none).filter
        fun cb => p2 (row.getD cb.2 0) := by
  induction l with
  | nil => rfl
  | cons kx rest ih =>
    have hkx := hl kx (List.mem_cons_self _ _)
    have hrest : ∀ kx2 ∈ rest, row.getD kx2.1 0 = kx2.2 :=
      fun kx2 h2 => hl kx2 (List.mem_cons_of_mem _ h2)
    rw [List.filterMap_cons, List.filterMap_cons]
    by_cases h2 : p2 kx.2
    · have h1 : p1 kx.2 := himp _ h2
      have hc : (fun cb : ℕ × ℕ => p2 (row.getD cb.2 0)) (j, kx.1) = true := by
        dsimp only
        rw [hkx]
        exact h2
      rw [if_pos h2, if_pos h1, List.filter_cons, if_pos hc, ih hrest]
    · rw [if_neg h2]
      by_cases h1 : p1 kx.2
      · have hc : ¬ (fun cb : ℕ × ℕ => p2 (row.getD cb.2 0)) (j, kx.1) = true := by
          dsimp only
          rw [hkx]
          exact h2
        rw [if_pos h1, List.filter_cons, if_neg hc]
        exact ih hrest
      · rw [if_neg h1]
        exact ih hrest

theorem whereIdx2_filter (p1 p2 : ℚ → Bool) (m : List (List ℚ))
    (himp : ∀ s, p2 s = true → p1 s = true) :
    whereIdx2 p2 m = (whereIdx2 p1 m).filter
      fun cb => p2 ((m.getD cb.1 []).getD cb.2 0) := by
  rw [whereIdx2, whereIdx2, filter_join, List.map_map]
  congr 1
  apply List.map_congr_left
  rintro ⟨j, row⟩ hmem
  obtain ⟨hjl, hjrow⟩ := (mem_enum_getD m [] j row).mp hmem
  dsimp only [Function.comp]
  rw [filterMap_if_filter j row p1 p2 himp row.enum
    (fun kx hkx => ((mem_enum_getD row 0 kx.1 kx.2).mp hkx).2)]
  apply List.filter_congr
  intro cb hcb
  obtain ⟨bs, hbs, hif⟩ := List.mem_filterMap.mp hcb
  have hcb1 : cb.1 = j := by
    by_cases hp : p1 bs.2
    · rw [if_pos hp] at hif
      injection hif with h3
      rw [← h3]
    · rw [if_neg hp] at hif
      cases hif
  rw [hcb1, hjrow]

theorem predictions_count_eq (numClass : ℕ) (t iouThresh : ℚ) (cap : ℕ)
    (boxes : List (List (List ℚ))) (scores : List (List ℚ)) :
    (boxclass_predictions numClass t iouThresh cap boxes scores).labels.length =
      ((sortByScoreP ((predictionCandidates numClass t scores).map fun cb =>
        ((((transposeDropBg numClass boxes).getD cb.1 []).getD cb.2 default).map
            (fun x => x +
              (cb.1 : ℚ) * (maxCoord (transposeDropBg numClass boxes) + 1)),
         ((transposeDropBg numClass scores).getD cb.1 []).getD
           cb.2 default))).foldl (nmsStepP iouThresh cap) []).length := by
  simp only [boxclass_predictions, List.length_map]
  rw [nms_length_eq, gatherPairs, gatherPairs, List.map_map, zipWith_map_same,
    zip_map_same]
  rfl

/-- C7: for fixed boxes, scores, IoU threshold and detections cap, the number
of detections returned by `boxclass_predictions` is antitone in the score
threshold: a higher threshold shrinks the candidate list to a prefix of the
same descending-score order, and greedy NMS over a prefix keeps no more
boxes. -/
theorem c7_threshold_antitone (numClass : ℕ) (t1 t2 iouThresh : ℚ) (cap : ℕ)
    (boxes : List (List (List ℚ))) (scores : List (List ℚ)) (h12 : t1 ≤ t2) :
    (boxclass_predictions numClass t2 iouThresh cap boxes scores).labels.length ≤
      (boxclass_predictions numClass t1 iouThresh cap boxes
        scores).labels.length := by
  rw [predictions_count_eq, predictions_count_eq]
  have hmono : ∀ a b : List ℚ × ℚ, b.2 ≤ a.2 →
      (fun pr : List ℚ × ℚ => decide (t2 < pr.2)) b = true →
      (fun pr : List ℚ × ℚ => decide (t2 < pr.2)) a = true := by
    intro a b hle hb
    simp only [decide_eq_true_eq] at hb ⊢
    exact lt_of_lt_of_le hb hle
  have hids : predictionCandidates numClass t2 scores =
      (predictionCandidates numClass t1 scores).filter fun cb =>
        decide (t2 < ((transposeDropBg numClass scores).getD cb.1 []).getD
          cb.2 0) := by
    rw [predictionCandidates, predictionCandidates]
    exact whereIdx2_filter _ _ _ (fun s h => by
      simp only [decide_eq_true_eq] at h ⊢
      exact lt_of_le_of_lt h12 h)
  rw [hids]
  have hq : (fun cb : ℕ × ℕ =>
      decide (t2 < ((transposeDropBg numClass scores).getD cb.1 []).getD
        cb.2 0)) =
      (fun pr : List ℚ × ℚ => decide (t2 < pr.2)) ∘ (fun cb : ℕ × ℕ =>
        ((((transposeDropBg numClass boxes).getD cb.1 []).getD cb.2 default).map
            (fun x => x +
              (cb.1 : ℚ) * (maxCoord (transposeDropBg numClass boxes) + 1)),
         ((transposeDropBg numClass scores).getD cb.1 []).getD cb.2 default)) := by
    funext cb
    simp only [Function.comp]
    rw [rat_default_eq]
  rw [hq, ← List.filter_map, filter_sortByScoreP _ hmono]
  set S := sortByScoreP ((predictionCandidates numClass t1 scores).map fun cb =>
      ((((transposeDropBg numClass boxes).getD cb.1 []).getD cb.2 default).map
          (fun x => x +
            (cb.1 : ℚ) * (maxCoord (transposeDropBg numClass boxes) + 1)),
       ((transposeDropBg numClass scores).getD cb.1 []).getD cb.2 default))
    with hS
  have hsorted : ScoreSortedP S := by
    rw [hS]
    exact sortByScoreP_sorted _
  calc (List.foldl (nmsStepP iouThresh cap) []
          (S.filter fun pr : List ℚ × ℚ => decide (t2 < pr.2))).length
      ≤ (List.foldl (nmsStepP iouThresh cap)
          (List.foldl (nmsStepP iouThresh cap) []
            (S.filter fun pr : List ℚ × ℚ => decide (t2 < pr.2)))
          (S.filter fun pr : List ℚ × ℚ => !decide (t2 < pr.2))).length :=
        foldl_nmsStepP_length_le _ _ _ _
    _ = (List.foldl (nmsStepP iouThresh cap) []
          ((S.filter fun pr : List ℚ × ℚ => decide (t2 < pr.2)) ++
            (S.filter fun pr : List ℚ × ℚ => !decide (t2 < pr.2)))).length := by
        rw [List.foldl_append]
    _ = (List.foldl (nmsStepP iouThresh cap) [] S).length := by
        conv_rhs => rw [sorted_partition _ hmono S hsorted]

theorem foldl_max_init_le (t : List ℚ) (init : ℚ) : init ≤ t.foldl max init := by
  induction t generalizing init with
  | nil => exact le_refl _
  | cons b bs ih => exact le_trans (le_max_left init b) (ih _)

theorem foldl_max_mem_le (t : List ℚ) (init x : ℚ) (h : x ∈ t) :
    x ≤ t.foldl max init := by
  induction t generalizing init with
  | nil => cases h
  | cons b bs ih =>
    rcases List.mem_cons.mp h with h2 | h2
    · subst h2
      exact le_trans (le_max_right init x) (foldl_max_init_le bs _)
    · exact ih _ h2

theorem le_reduceMaxD {l : List ℚ} {x : ℚ} (h : x ∈ l) : x ≤ reduceMaxD l := by
  cases l with
  | nil => cases h
  | cons a tl =>
    rw [reduceMaxD]
    rcases List.mem_cons.mp h with h2 | h2
    · subst h2
      exact foldl_max_init_le tl x
    · exact foldl_max_mem_le tl a x h2

theorem transposeDropBg_getD_box (numClass : ℕ) (boxes : List (List (List ℚ)))
    (c b : ℕ) (hc : c + 1 < numClass) (hb : b < boxes.length) :
    ((transposeDropBg numClass boxes).getD c []).getD b default =
      (boxes.getD b []).getD (c + 1) default := by
  rw [transposeDropBg_eq,
    getD_map_lt _ _ c 0 [] (by rw [List.length_range]; omega),
    getD_range _ _ (by omega), getD_map_lt _ _ b [] default hb]

theorem iouTF_shift_disjoint (w : List ℚ) (d1 d2 mc : ℚ) (hlen : w.length = 4)
    (hw : ∀ x ∈ w, 0 ≤ x ∧ x ≤ mc)
    (hd : mc + 1 ≤ d2 - d1 ∨ mc + 1 ≤ d1 - d2) :
    iouTF (w.map fun x => x + d1) (w.map fun x => x + d2) = 0 := by
  have g0 : ∀ d : ℚ, (w.map fun x => x + d).getD 0 0 = w.getD 0 0 + d :=
    fun d => getD_map_lt _ _ 0 0 0 (by omega)
  have g1 : ∀ d : ℚ, (w.map fun x => x + d).getD 1 0 = w.getD 1 0 + d :=
    fun d => getD_map_lt _ _ 1 0 0 (by omega)
  have g2 : ∀ d : ℚ, (w.map fun x => x + d).getD 2 0 = w.getD 2 0 + d :=
    fun d => getD_map_lt _ _ 2 0 0 (by omega)
  have g3 : ∀ d : ℚ, (w.map fun x => x + d).getD 3 0 = w.getD 3 0 + d :=
    fun d => getD_map_lt _ _ 3 0 0 (by omega)
  have m0 := hw _ (getD_mem_of_lt (0 : ℚ) (show 0 < w.length by omega))
  have m1 := hw _ (getD_mem_of_lt (0 : ℚ) (show 1 < w.length by omega))
  have m2 := hw _ (getD_mem_of_lt (0 : ℚ) (show 2 < w.length by omega))
  have m3 := hw _ (getD_mem_of_lt (0 : ℚ) (show 3 < w.length by omega))
  simp only [iouTF, g0, g1, g2, g3]
  split
  · rfl
  · have hih : min (max (w.getD 0 0 + d1) (w.getD 2 0 + d1))
        (max (w.getD 0 0 + d2) (w.getD 2 0 + d2)) -
        max (min (w.getD 0 0 + d1) (w.getD 2 0 + d1))
        (min (w.getD 0 0 + d2) (w.getD 2 0 + d2)) ≤ 0 := by
      rw [max_add_add_right, max_add_add_right, min_add_add_right,
        min_add_add_right, min_add_add_left, max_add_add_left]
      have hM : max (w.getD 0 0) (w.getD 2 0) ≤ mc := max_le m0.2 m2.2
      have hm : 0 ≤ min (w.getD 0 0) (w.getD 2 0) := le_min m0.1 m2.1
      rcases hd with hd | hd
      · have := min_le_left d1 d2
        have := le_max_right d1 d2
        linarith
      · have := min_le_right d1 d2
        have := le_max_left d1 d2
        linarith
    rw [max_eq_left hih, zero_mul, zero_div]

theorem iouTF_shift (b1 b2 : List ℚ) (d : ℚ) (h1 : b1.length = 4)
    (h2 : b2.length = 4) :
    iouTF (b1.map fun x => x + d) (b2.map fun x => x + d) = iouTF b1 b2 := by
  have g1 : ∀ k, k < 4 → (b1.map fun x => x + d).getD k 0 = b1.getD k 0 + d :=
    fun k hk => getD_map_lt _ _ k 0 0 (by omega)
  have g2 : ∀ k, k < 4 → (b2.map fun x => x + d).getD k 0 = b2.getD k 0 + d :=
    fun k hk => getD_map_lt _ _ k 0 0 (by omega)
  simp only [iouTF, g1 0 (by omega), g1 1 (by omega), g1 2 (by omega),
    g1 3 (by omega), g2 0 (by omega), g2 1 (by omega), g2 2 (by omega),
    g2 3 (by omega), max_add_add_right, min_add_add_right,
    add_sub_add_right_eq_sub]

theorem nms_two_keep_both (iouT : ℚ) (cap : ℕ) (B1 B2 : List ℚ) (s1 s2 : ℚ)
    (hcap : 2 ≤ cap) (h12 : iouTF B1 B2 ≤ iouT) (h21 : iouTF B2 B1 ≤ iouT) :
    nonMaxSuppression iouT cap [B1, B2] [s1, s2] = [0, 1] ∨
    nonMaxSuppression iouT cap [B1, B2] [s1, s2] = [1, 0] := by
  rw [nonMaxSuppression]
  have henum : (([B1, B2].zip [s1, s2]).enum.map fun p => (p.1, p.2.1, p.2.2)) =
      [(0, B1, s1), (1, B2, s2)] := rfl
  rw [henum]
  have hsorted : sortByScore [(0, B1, s1), (1, B2, s2)] =
      insertByScore (0, B1, s1) [(1, B2, s2)] := rfl
  rw [hsorted, insertByScore]
  by_cases hss : s1 < s2
  · rw [if_pos hss]
    right
    rw [show insertByScore (0, B1, s1) [] = [(0, B1, s1)] from rfl,
      List.foldl_cons, List.foldl_cons, List.foldl_nil]
    rw [show nmsStep iouT cap [] (1, B2, s2) = [(1, B2, s2)] from by
      rw [nmsStep, if_pos ⟨by simpa using by omega, by simp⟩]
      rfl]
    rw [show nmsStep iouT cap [(1, B2, s2)] (0, B1, s1) =
        [(1, B2, s2), (0, B1, s1)] from by
      rw [nmsStep, if_pos ⟨by simpa using by omega, by simpa using h21⟩]
      rfl]
    rfl
  · rw [if_neg hss]
    left
    rw [List.foldl_cons, List.foldl_cons, List.foldl_nil]
    rw [show nmsStep iouT cap [] (0, B1, s1) = [(0, B1, s1)] from by
      rw [nmsStep, if_pos ⟨by simpa using by omega, by simp⟩]
      rfl]
    rw [show nmsStep iouT cap [(0, B1, s1)] (1, B2, s2) =
        [(0, B1, s1), (1, B2, s2)] from by
      rw [nmsStep, if_pos ⟨by simpa using by omega, by simpa using h12⟩]
      rfl]
    rfl

theorem nms_two_suppress_second (iouT : ℚ) (cap : ℕ) (B1 B2 : List ℚ)
    (s1 s2 : ℚ) (hcap : 1 ≤ cap) (hs : s2 < s1) (h : iouT < iouTF B1 B2) :
    nonMaxSuppression iouT cap [B1, B2] [s1, s2] = [0] := by
  rw [nonMaxSuppression]
  have henum : (([B1, B2].zip [s1, s2]).enum.map fun p => (p.1, p.2.1, p.2.2)) =
      [(0, B1, s1), (1, B2, s2)] := rfl
  rw [henum]
  have hsorted : sortByScore [(0, B1, s1), (1, B2, s2)] =
      insertByScore (0, B1, s1) [(1, B2, s2)] := rfl
  rw [hsorted, insertByScore, if_neg (by simpa using le_of_lt hs)]
  rw [List.foldl_cons, List.foldl_cons, List.foldl_nil]
  rw [show nmsStep iouT cap [] (0, B1, s1) = [(0, B1, s1)] from by
    rw [nmsStep, if_pos ⟨by simpa using by omega, by simp⟩]
    rfl]
  rw [show nmsStep iouT cap [(0, B1, s1)] (1, B2, s2) = [(0, B1, s1)] from by
    rw [nmsStep, if_neg ?hneg]
    case hneg =>
      rintro ⟨h1, h2⟩
      exact absurd (by simpa using h2 (0, B1, s1) (List.mem_singleton_self _))
        (not_le.mpr h)]
  rfl

theorem boxclass_predictions_two (numClass : ℕ) (t iouT : ℚ) (cap : ℕ)
    (boxes : List (List (List ℚ))) (scores : List (List ℚ))
    (c1 b1 c2 b2 : ℕ)
    (hids : predictionCandidates numClass t scores = [(c1, b1), (c2, b2)]) :
    boxclass_predictions numClass t iouT cap boxes scores =
      { boxes := (nonMaxSuppression iouT cap
          [(((transposeDropBg numClass boxes).getD c1 []).getD b1 default).map
              (fun x => x + (c1 : ℚ) *
                (maxCoord (transposeDropBg numClass boxes) + 1)),
           (((transposeDropBg numClass boxes).getD c2 []).getD b2 default).map
              (fun x => x + (c2 : ℚ) *
                (maxCoord (transposeDropBg numClass boxes) + 1))]
          [((transposeDropBg numClass scores).getD c1 []).getD b1 default,
           ((transposeDropBg numClass scores).getD c2 []).getD b2 default]).map
          fun j => [((transposeDropBg numClass boxes).getD c1 []).getD b1 default,
            ((transposeDropBg numClass boxes).getD c2 []).getD b2 default].getD j []
        scores := (nonMaxSuppression iouT cap
          [(((transposeDropBg numClass boxes).getD c1 []).getD b1 default).map
              (fun x => x + (c1 : ℚ) *
                (maxCoord (transposeDropBg numClass boxes) + 1)),
           (((transposeDropBg numClass boxes).getD c2 []).getD b2 default).map
              (fun x => x + (c2 : ℚ) *
                (maxCoord (transposeDropBg numClass boxes) + 1))]
          [((transposeDropBg numClass scores).getD c1 []).getD b1 default,
           ((transposeDropBg numClass scores).getD c2 []).getD b2 default]).map
          fun j => [((transposeDropBg numClass scores).getD c1 []).getD b1 default,
            ((transposeDropBg numClass scores).getD c2 []).getD b2 default].getD j 0
        labels := (nonMaxSuppression iouT cap
          [(((transposeDropBg numClass boxes).getD c1 []).getD b1 default).map
              (fun x => x + (c1 : ℚ) *
                (maxCoord (transposeDropBg numClass boxes) + 1)),
           (((transposeDropBg numClass boxes).getD c2 []).getD b2 default).map
              (fun x => x + (c2 : ℚ) *
                (maxCoord (transposeDropBg numClass boxes) + 1))]
          [((transposeDropBg numClass scores).getD c1 []).getD b1 default,
           ((transposeDropBg numClass scores).getD c2 []).getD b2 default]).map
          fun j => [c1, c2].getD j 0 + 1
        boxIds := (nonMaxSuppression iouT cap
          [(((transposeDropBg numClass boxes).getD c1 []).getD b1 default).map
              (fun x => x + (c1 : ℚ) *
                (maxCoord (transposeDropBg numClass boxes) + 1)),
           (((transposeDropBg numClass boxes).getD c2 []).getD b2 default).map
              (fun x => x + (c2 : ℚ) *
                (maxCoord (transposeDropBg numClass boxes) + 1))]
          [((transposeDropBg numClass scores).getD c1 []).getD b1 default,
           ((transposeDropBg numClass scores).getD c2 []).getD b2 default]).map
          fun j => ([(c1, b1), (c2, b2)].getD j (0, 0)).2 } := by
  simp only [boxclass_predictions, hids, gatherPairs, List.map_cons,
    List.map_nil, List.zipWith_cons_cons, List.zipWith_nil_right]

theorem two_candidate_cross_class_kept (numClass : ℕ) (t iouT : ℚ) (cap : ℕ)
    (boxes : List (List (List ℚ))) (scores : List (List ℚ)) (c1 b1 c2 b2 : ℕ)
    (hids : predictionCandidates numClass t scores = [(c1, b1), (c2, b2)])
    (hneq : c1 ≠ c2)
    (hlen : boxes.length = scores.length)
    (hrect : ∀ r ∈ boxes, r.length = numClass)
    (h4 : ∀ r ∈ boxes, ∀ q ∈ r, q.length = 4)
    (hnn : ∀ r ∈ boxes, ∀ q ∈ r, ∀ x ∈ q, 0 ≤ x)
    (hcoords : ((transposeDropBg numClass boxes).getD c1 []).getD b1 default =
      ((transposeDropBg numClass boxes).getD c2 []).getD b2 default)
    (hiou : 0 ≤ iouT) (hcap : 2 ≤ cap) :
    (boxclass_predictions numClass t iouT cap boxes scores).labels.length = 2 ∧
    c1 + 1 ∈ (boxclass_predictions numClass t iouT cap boxes scores).labels ∧
    c2 + 1 ∈ (boxclass_predictions numClass t iouT cap boxes scores).labels := by
  have hm1 : (c1, b1) ∈ predictionCandidates numClass t scores := by
    rw [hids]
    simp
  have hm2 : (c2, b2) ∈ predictionCandidates numClass t scores := by
    rw [hids]
    simp
  obtain ⟨hc1, hb1, -⟩ := (predictionCandidates_mem _ _ _ _ _).mp hm1
  obtain ⟨hc2, hb2, -⟩ := (predictionCandidates_mem _ _ _ _ _).mp hm2
  have hb1b : b1 < boxes.length := by rw [hlen]; exact hb1
  have hb2b : b2 < boxes.length := by rw [hlen]; exact hb2
  have hwdef : ((transposeDropBg numClass boxes).getD c1 []).getD b1 default =
      (boxes.getD b1 []).getD (c1 + 1) default :=
    transposeDropBg_getD_box _ _ _ _ hc1 hb1b
  have hrow : boxes.getD b1 [] ∈ boxes := getD_mem_of_lt [] hb1b
  have hwmem : ((transposeDropBg numClass boxes).getD c1 []).getD b1 default ∈
      boxes.getD b1 [] := by
    rw [hwdef]
    exact getD_mem_of_lt default (by rw [hrect _ hrow]; omega)
  have hw4 : (((transposeDropBg numClass boxes).getD c1 []).getD
      b1 default).length = 4 := h4 _ hrow _ hwmem
  have hwb : ∀ x ∈ ((transposeDropBg numClass boxes).getD c1 []).getD b1 default,
      0 ≤ x ∧ x ≤ maxCoord (transposeDropBg numClass boxes) := by
    intro x hx
    refine ⟨hnn _ hrow _ hwmem x hx, ?_⟩
    have hcatrow : (transposeDropBg numClass boxes).getD c1 [] ∈
        transposeDropBg numClass boxes :=
      getD_mem_of_lt [] (by rw [transposeDropBg_length]; omega)
    have hwmem2 : ((transposeDropBg numClass boxes).getD c1 []).getD b1 default ∈
        (transposeDropBg numClass boxes).getD c1 [] :=
      getD_mem_of_lt default (by rw [transposeDropBg_row_length _ _ _ hc1]; exact hb1b)
    have hj1 : ((transposeDropBg numClass boxes).getD c1 []).getD b1 default ∈
        (transposeDropBg numClass boxes).join :=
      List.mem_join.mpr ⟨_, hcatrow, hwmem2⟩
    have hj2 : x ∈ (transposeDropBg numClass boxes).join.join :=
      List.mem_join.mpr ⟨_, hj1, hx⟩
    exact le_reduceMaxD hj2
  have hmc0 : 0 ≤ maxCoord (transposeDropBg numClass boxes) := by
    have h0 : (((transposeDropBg numClass boxes).getD c1 []).getD
        b1 default).getD 0 0 ∈
        ((transposeDropBg numClass boxes).getD c1 []).getD b1 default :=
      getD_mem_of_lt (0 : ℚ) (by omega)
    obtain ⟨ha, hb⟩ := hwb _ h0
    linarith
  have hsep : maxCoord (transposeDropBg numClass boxes) + 1 ≤
      (c2 : ℚ) * (maxCoord (transposeDropBg numClass boxes) + 1) -
        (c1 : ℚ) * (maxCoord (transposeDropBg numClass boxes) + 1) ∨
      maxCoord (transposeDropBg numClass boxes) + 1 ≤
      (c1 : ℚ) * (maxCoord (transposeDropBg numClass boxes) + 1) -
        (c2 : ℚ) * (maxCoord (transposeDropBg numClass boxes) + 1) := by
    rcases Nat.lt_or_ge c1 c2 with hlt | hge
    · left
      have hcast : (c1 : ℚ) + 1 ≤ (c2 : ℚ) := by
        exact_mod_cast Nat.succ_le_of_lt hlt
      nlinarith
    · right
      have hlt2 : c2 < c1 := lt_of_le_of_ne hge (Ne.symm hneq)
      have hcast : (c2 : ℚ) + 1 ≤ (c1 : ℚ) := by
        exact_mod_cast Nat.succ_le_of_lt hlt2
      nlinarith
  have h12 : iouTF
      ((((transposeDropBg numClass boxes).getD c1 []).getD b1 default).map
        (fun x => x + (c1 : ℚ) * (maxCoord (transposeDropBg numClass boxes) + 1)))
      ((((transposeDropBg numClass boxes).getD c2 []).getD b2 default).map
        (fun x => x + (c2 : ℚ) *
          (maxCoord (transposeDropBg numClass boxes) + 1))) = 0 := by
    rw [← hcoords]
    exact iouTF_shift_disjoint _ _ _ _ hw4 hwb hsep
  have h21 : iouTF
      ((((transposeDropBg numClass boxes).getD c2 []).getD b2 default).map
        (fun x => x + (c2 : ℚ) * (maxCoord (transposeDropBg numClass boxes) + 1)))
      ((((transposeDropBg numClass boxes).getD c1 []).getD b1 default).map
        (fun x => x + (c1 : ℚ) *
          (maxCoord (transposeDropBg numClass boxes) + 1))) = 0 := by
    rw [← hcoords]
    exact iouTF_shift_disjoint _ _ _ _ hw4 hwb (Or.symm hsep)
  rw [boxclass_predictions_two numClass t iouT cap boxes scores c1 b1 c2 b2 hids]
  rcases nms_two_keep_both iouT cap _ _ _ _ hcap (le_of_eq_of_le h12 hiou)
      (le_of_eq_of_le h21 hiou) with hnms | hnms <;>
    rw [hnms] <;> simp

theorem two_candidate_same_class_suppressed (numClass : ℕ) (t iouT : ℚ)
    (cap : ℕ) (boxes : List (List (List ℚ))) (scores : List (List ℚ))
    (c b1 b2 : ℕ)
    (hids : predictionCandidates numClass t scores = [(c, b1), (c, b2)])
    (hlen : boxes.length = scores.length)
    (hrect : ∀ r ∈ boxes, r.length = numClass)
    (h4 : ∀ r ∈ boxes, ∀ q ∈ r, q.length = 4)
    (hcap : 1 ≤ cap)
    (hs : ((transposeDropBg numClass scores).getD c []).getD b2 default <
      ((transposeDropBg numClass scores).getD c []).getD b1 default)
    (hiouGT : iouT < iouTF
      (((transposeDropBg numClass boxes).getD c []).getD b1 default)
      (((transposeDropBg numClass boxes).getD c []).getD b2 default)) :
    (boxclass_predictions numClass t iouT cap boxes scores).boxIds = [b1] ∧
    (boxclass_predictions numClass t iouT cap boxes scores).labels = [c + 1] := by
  have hm1 : (c, b1) ∈ predictionCandidates numClass t scores := by
    rw [hids]
    simp
  have hm2 : (c, b2) ∈ predictionCandidates numClass t scores := by
    rw [hids]
    simp
  obtain ⟨hc1, hb1, -⟩ := (predictionCandidates_mem _ _ _ _ _).mp hm1
  obtain ⟨-, hb2, -⟩ := (predictionCandidates_mem _ _ _ _ _).mp hm2
  have hb1b : b1 < boxes.length := by rw [hlen]; exact hb1
  have hb2b : b2 < boxes.length := by rw [hlen]; exact hb2
  have hw41 : (((transposeDropBg numClass boxes).getD c []).getD
      b1 default).length = 4 := by
    rw [transposeDropBg_getD_box _ _ _ _ hc1 hb1b]
    have hrow : boxes.getD b1 [] ∈ boxes := getD_mem_of_lt [] hb1b
    exact h4 _ hrow _ (getD_mem_of_lt default (by rw [hrect _ hrow]; omega))
  have hw42 : (((transposeDropBg numClass boxes).getD c []).getD
      b2 default).length = 4 := by
    rw [transposeDropBg_getD_box _ _ _ _ hc1 hb2b]
    have hrow : boxes.getD b2 [] ∈ boxes := getD_mem_of_lt [] hb2b
    exact h4 _ hrow _ (getD_mem_of_lt default (by rw [hrect _ hrow]; omega))
  rw [boxclass_predictions_two numClass t iouT cap boxes scores c b1 c b2 hids]
  rw [nms_two_suppress_second iouT cap _ _ _ _ hcap hs
    (by rw [iouTF_shift _ _ _ hw41 hw42]; exact hiouGT)]
  simp

/-- C6 (amended): in `boxclass_predictions`, restricted to the scenario the
spec words describe, with exactly two score-thresholded candidates, all box
coordinates non-negative, a non-negative IoU threshold and a detections cap
that admits the results (the cap is the correction the counterexample forces):
two candidates with identical coordinates and different class indices are both
in the final output because the class offsetting makes their overlap zero,
while two same-class candidates whose IoU exceeds the NMS threshold yield only
the higher-scoring one. -/
theorem c6_amended_two_candidate_nms :
    (∀ (numClass : ℕ) (t iouT : ℚ) (cap : ℕ) (boxes : List (List (List ℚ)))
      (scores : List (List ℚ)) (c1 b1 c2 b2 : ℕ),
      predictionCandidates numClass t scores = [(c1, b1), (c2, b2)] →
      c1 ≠ c2 →
      boxes.length = scores.length →
      (∀ r ∈ boxes, r.length = numClass) →
      (∀ r ∈ boxes, ∀ q ∈ r, q.length = 4) →
      (∀ r ∈ boxes, ∀ q ∈ r, ∀ x ∈ q, 0 ≤ x) →
      ((transposeDropBg numClass boxes).getD c1 []).getD b1 default =
        ((transposeDropBg numClass boxes).getD c2 []).getD b2 default →
      0 ≤ iouT → 2 ≤ cap →
      (boxclass_predictions numClass t iouT cap boxes scores).labels.length = 2 ∧
      c1 + 1 ∈ (boxclass_predictions numClass t iouT cap boxes scores).labels ∧
      c2 + 1 ∈ (boxclass_predictions numClass t iouT cap boxes scores).labels) ∧
    (∀ (numClass : ℕ) (t iouT : ℚ) (cap : ℕ) (boxes : List (List (List ℚ)))
      (scores : List (List ℚ)) (c b1 b2 : ℕ),
      predictionCandidates numClass t scores = [(c, b1), (c, b2)] →
      boxes.length = scores.length →
      (∀ r ∈ boxes, r.length = numClass) →
      (∀ r ∈ boxes, ∀ q ∈ r, q.length = 4) →
      1 ≤ cap →
      ((transposeDropBg numClass scores).getD c []).getD b2 default <
        ((transposeDropBg numClass scores).getD c []).getD b1 default →
      iouT < iouTF (((transposeDropBg numClass boxes).getD c []).getD b1 default)
        (((transposeDropBg numClass boxes).getD c []).getD b2 default) →
      (boxclass_predictions numClass t iouT cap boxes scores).boxIds = [b1] ∧
      (boxclass_predictions numClass t iouT cap boxes scores).labels = [c + 1]) :=
  ⟨fun numClass t iouT cap boxes scores c1 b1 c2 b2 h1 h2 h3 h4 h5 h6 h7 h8 h9 =>
    two_candidate_cross_class_kept numClass t iouT cap boxes scores c1 b1 c2 b2
      h1 h2 h3 h4 h5 h6 h7 h8 h9,
   fun numClass t iouT cap boxes scores c b1 b2 h1 h2 h3 h4 h5 h6 h7 =>
    two_candidate_same_class_suppressed numClass t iouT cap boxes scores c b1 b2
      h1 h2 h3 h4 h5 h6 h7⟩

/-- C6 counterexample: with detections cap `RESULTS_PER_IM = 1`, the single
proposal carries two identical boxes for classes 1 and 2, both scores exceed
the threshold and the offset boxes do not overlap, yet the final output holds
only the higher-scoring triple (label 1) — the lower one is cut by the cap, so
the claim that both always appear in the final output is false as stated. -/
theorem c6_counterexample :
    (0, 0) ∈ predictionCandidates 3 ((1 : ℚ)/2) [[0, 9/10, 8/10]] ∧
    (1, 0) ∈ predictionCandidates 3 ((1 : ℚ)/2) [[0, 9/10, 8/10]] ∧
    boxclass_predictions 3 ((1 : ℚ)/2) ((1 : ℚ)/2) 1
      [[[9, 9, 9, 9], [0, 0, 10, 10], [0, 0, 10, 10]]] [[0, 9/10, 8/10]] =
      ⟨[[0, 0, 10, 10]], [9/10], [1], [0]⟩ := by
  have hids : predictionCandidates 3 ((1 : ℚ)/2) [[0, 9/10, 8/10]] =
      [(0, 0), (1, 0)] := by with_unfolding_all rfl
  refine ⟨by rw [hids]; simp, by rw [hids]; simp, ?_⟩
  with_unfolding_all rfl

theorem c6_witness :
    ((boxclass_predictions 3 ((1 : ℚ)/2) ((1 : ℚ)/2) 2
        [[[9, 9, 9, 9], [0, 0, 10, 10], [0, 0, 10, 10]]]
        [[0, 9/10, 8/10]]).labels.length = 2 ∧
      0 + 1 ∈ (boxclass_predictions 3 ((1 : ℚ)/2) ((1 : ℚ)/2) 2
        [[[9, 9, 9, 9], [0, 0, 10, 10], [0, 0, 10, 10]]]
        [[0, 9/10, 8/10]]).labels ∧
      1 + 1 ∈ (boxclass_predictions 3 ((1 : ℚ)/2) ((1 : ℚ)/2) 2
        [[[9, 9, 9, 9], [0, 0, 10, 10], [0, 0, 10, 10]]]
        [[0, 9/10, 8/10]]).labels) ∧
    ((boxclass_predictions 3 ((1 : ℚ)/2) ((1 : ℚ)/2) 5
        [[[9, 9, 9, 9], [0, 0, 10, 10], [5, 5, 5, 5]],
         [[9, 9, 9, 9], [0, 1, 10, 11], [5, 5, 5, 5]]]
        [[0, 9/10, 0], [0, 8/10, 0]]).boxIds = [0] ∧
      (boxclass_predictions 3 ((1 : ℚ)/2) ((1 : ℚ)/2) 5
        [[[9, 9, 9, 9], [0, 0, 10, 10], [5, 5, 5, 5]],
         [[9, 9, 9, 9], [0, 1, 10, 11], [5, 5, 5, 5]]]
        [[0, 9/10, 0], [0, 8/10, 0]]).labels = [0 + 1]) := by
  constructor
  · exact c6_amended_two_candidate_nms.1 3 ((1 : ℚ)/2) ((1 : ℚ)/2) 2 _ _ 0 0 1 0
      (by with_unfolding_all rfl) (by decide) rfl (by decide) (by decide)
      (by with_unfolding_all decide) (by with_unfolding_all rfl)
      (by norm_num) (by norm_num)
  · exact c6_amended_two_candidate_nms.2 3 ((1 : ℚ)/2) ((1 : ℚ)/2) 5 _ _ 0 0 1
      (by with_unfolding_all rfl) rfl (by decide) (by decide) (by norm_num)
      (by with_unfolding_all decide) (by with_unfolding_all decide)

theorem c5_witness :
    (0, 0) ∈ predictionCandidates 3 ((1 : ℚ)/2) [[0, 9/10, 1/4]] :=
  ((c5_postprocessor_strict_threshold 3 ((1 : ℚ)/2) ((1 : ℚ)/2) 5 []
    [[0, 9/10, 1/4]]).1 0 0).mpr
    ⟨by norm_num, by norm_num, by with_unfolding_all decide⟩

theorem c7_witness :
    ((1 : ℚ)/4 ≤ (1 : ℚ)/2) ∧
    (boxclass_predictions 3 ((1 : ℚ)/2) ((1 : ℚ)/2) 5
      [[[9, 9, 9, 9], [0, 0, 10, 10], [20, 20, 30, 30]]]
      [[0, 9/10, 3/10]]).labels.length ≤
    (boxclass_predictions 3 ((1 : ℚ)/4) ((1 : ℚ)/2) 5
      [[[9, 9, 9, 9], [0, 0, 10, 10], [20, 20, 30, 30]]]
      [[0, 9/10, 3/10]]).labels.length :=
  ⟨by norm_num, c7_threshold_antitone 3 ((1 : ℚ)/4) ((1 : ℚ)/2) ((1 : ℚ)/2) 5
    [[[9, 9, 9, 9], [0, 0, 10, 10], [20, 20, 30, 30]]]
    [[0, 9/10, 3/10]] (by norm_num)⟩

/- ### BoxClassHead.losses (source lines 256-312) -/

/-- Modelled from the spec: `encode_bbox_target` comes from `model_box.py`,
which is not among the sources; spec §4.1 pins down only that encoding is a
per-(ground-truth box, anchor box) transform to a 4-vector regression target,
so the per-pair transform `enc` stays abstract here, applied pairwise exactly
as the tensor op is. -/
def encode_bbox_target (enc : List ℚ → List ℚ → List ℚ)
    (gt anchors : List (List ℚ)) : List (List ℚ) :=
  List.zipWith enc gt anchors

/-- One iteration of the per-image loop of `BoxClassHead.losses` (source
lines 279-303), producing that image's labels, label logits, encoded
foreground ground-truth boxes and foreground box logits.  Python `[i]`
indexing and `tf.gather` fail on out-of-range indices, hence `Option`;
selecting rows by `tf.equal(col0, i)` cannot fail. -/
def lossesPerImage (enc : List ℚ → List ℚ → List ℚ)
    (gtBoxes : List (List (List ℚ))) (prepaddingGtCounts : List ℕ)
    (gtIdForEachFg : List (List ℕ)) (proposalFgBoxes : List (List ℚ))
    (proposalLabels : List ℕ) (labelLogits : List (List ℚ))
    (proposalFgInds : List ℕ) (boxLogits : List (List (List ℚ)))
    (proposalBoxes : List (List ℚ)) (bboxRegressionWeights : List ℚ) (i : ℕ) :
    Option (List ℕ × List (List ℚ) × List (List ℚ) × List (List (List ℚ))) :=
  (gtIdForEachFg.get? i).bind fun singleImageFgIndsWrtGt =>
  (gtBoxes.get? i).bind fun gtB =>
  (prepaddingGtCounts.get? i).bind fun cnt =>
  let singleImageGtBoxes := gtB.take cnt
  (gather singleImageGtBoxes singleImageFgIndsWrtGt).bind fun gtForEachFg =>
  let fgIdxs := whereIdx (fun row => decide (row.getD 0 0 = (i : ℚ)))
    proposalFgBoxes
  (gather proposalFgBoxes fgIdxs).bind fun singleImageFgBoxes5 =>
  let singleImageFgBoxes := singleImageFgBoxes5.map (List.drop 1)
  let encodedFgGtBoxes :=
    (encode_bbox_target enc gtForEachFg singleImageFgBoxes).map
      fun tgt => List.zipWith (· * ·) tgt bboxRegressionWeights
  let boxIdxs := whereIdx (fun row => decide (row.getD 0 0 = (i : ℚ)))
    proposalBoxes
  (gather proposalLabels boxIdxs).bind fun singleImageLabels =>
  (gather labelLogits boxIdxs).bind fun singleImageLabelLogits =>
  (gather proposalFgInds fgIdxs).bind fun singleImageFgBoxLogitsIndices =>
  (gather boxLogits singleImageFgBoxLogitsIndices).bind
    fun singleImageFgBoxLogits =>
  some (singleImageLabels, singleImageLabelLogits, encodedFgGtBoxes,
    singleImageFgBoxLogits)

/-- The accumulating `for i in range(batch_size_per_gpu)` loop: run the body
per image, collecting the per-image results in order. -/
def collectImages (f : ℕ → Option β) : List ℕ → Option (List β)
  | [] => some []
  | i :: rest =>
    (f i).bind fun b => (collectImages f rest).bind fun bs => some (b :: bs)

/-- Embedding of the loss-input assembly of `BoxClassHead.losses` (source
lines 275-311): the four per-image sequences concatenated across images. -/
def boxClassHeadLossInputs (enc : List ℚ → List ℚ → List ℚ) (batchSize : ℕ)
    (gtBoxes : List (List (List ℚ))) (prepaddingGtCounts : List ℕ)
    (gtIdForEachFg : List (List ℕ)) (proposalFgBoxes : List (List ℚ))
    (proposalLabels : List ℕ) (labelLogits : List (List ℚ))
    (proposalFgInds : List ℕ) (boxLogits : List (List (List ℚ)))
    (proposalBoxes : List (List ℚ)) (bboxRegressionWeights : List ℚ) :
    Option (List ℕ × List (List ℚ) × List (List ℚ) × List (List (List ℚ))) :=
  (collectImages (lossesPerImage enc gtBoxes prepaddingGtCounts gtIdForEachFg
      proposalFgBoxes proposalLabels labelLogits proposalFgInds boxLogits
      proposalBoxes bboxRegressionWeights) (List.range batchSize)).bind
    fun parts =>
  some ((parts.map (·.1)).join, (parts.map (·.2.1)).join,
    (parts.map (·.2.2.1)).join, (parts.map (·.2.2.2)).join)

/-- `BoxClassHead.losses` (non-shortcut path): the concatenated inputs fed to
`boxclass_losses` (source lines 307-312); `K` is `box_logits.shape[1]`. -/
def boxClassHeadLosses (K : ℕ) (enc : List ℚ → List ℚ → List ℚ)
    (batchSize : ℕ) (gtBoxes : List (List (List ℚ)))
    (prepaddingGtCounts : List ℕ) (gtIdForEachFg : List (List ℕ))
    (proposalFgBoxes : List (List ℚ)) (proposalLabels : List ℕ)
    (labelLogits : List (List ℚ)) (proposalFgInds : List ℕ)
    (boxLogits : List (List (List ℚ))) (proposalBoxes : List (List ℚ))
    (bboxRegressionWeights : List ℚ) : Option BoxClassLossOut :=
  (boxClassHeadLossInputs enc batchSize gtBoxes prepaddingGtCounts
      gtIdForEachFg proposalFgBoxes proposalLabels labelLogits proposalFgInds
      boxLogits proposalBoxes bboxRegressionWeights).bind fun q =>
  boxclass_losses K q.1 q.2.1 q.2.2.1 q.2.2.2

theorem whereIdx_length (p : α → Bool) (l : List α) :
    (whereIdx p l).length = (l.filter p).length := by
  rw [whereIdx, List.length_map]
  have h : ∀ (n : ℕ) (t : List α),
      ((t.enumFrom n).filter fun ia => p ia.2).length = (t.filter p).length := by
    intro n t
    induction t generalizing n with
    | nil => rfl
    | cons a rest ih =>
      rw [List.enumFrom_cons, List.filter_cons, List.filter_cons]
      by_cases hp : p a
      · simp only [hp, if_pos]
        rw [List.length_cons, List.length_cons, ih]
      · simp only [hp]
        rw [if_neg (by simp), if_neg (by simp), ih]
  exact h 0 l

theorem filter_or_disjoint (P Q : α → Bool) (l : List α)
    (h : ∀ a ∈ l, ¬(P a = true ∧ Q a = true)) :
    (l.filter P).length + (l.filter Q).length =
      (l.filter fun a => P a || Q a).length := by
  induction l with
  | nil => rfl
  | cons a t ih =>
    have ht : ∀ b ∈ t, ¬(P b = true ∧ Q b = true) :=
      fun b hb => h b (List.mem_cons_of_mem _ hb)
    have iht := ih ht
    cases hb1 : P a <;> cases hb2 : Q a
    · simp [List.filter_cons, hb1, hb2]
      omega
    · simp [List.filter_cons, hb1, hb2]
      omega
    · simp [List.filter_cons, hb1, hb2]
      omega
    · exact absurd ⟨hb1, hb2⟩ (h a (List.mem_cons_self _ _))

theorem sum_countP_image_range (f : α → ℚ) (l : List α) (n : ℕ) :
    ((List.range n).map fun (i : ℕ) =>
      (l.filter fun a => decide (f a = (i : ℚ))).length).sum =
      (l.filter fun a =>
        (List.range n).any fun i => decide (f a = (i : ℚ))).length := by
  induction n with
  | zero => simp
  | succ m ih =>
    rw [List.range_succ, List.map_append, List.sum_append]
    simp only [List.map_cons, List.map_nil, List.sum_cons, List.sum_nil,
      add_zero]
    rw [ih]
    rw [filter_or_disjoint _ _ l (by
      rintro a ha ⟨h1, h2⟩
      obtain ⟨i, hi, hfi⟩ := List.any_eq_true.mp h1
      simp only [decide_eq_true_eq] at hfi h2
      rw [hfi] at h2
      have him : i = m := by exact_mod_cast h2
      rw [List.mem_range] at hi
      omega)]
    congr 1
    apply List.filter_congr
    intro a ha
    rw [List.any_append]
    simp

theorem getD_zip_range2 [Inhabited β] (l : List β) (k : ℕ) (d : β)
    (h : k < l.length) :
    ((List.range l.length).zip l).getD k (0, d) = (k, l.getD k d) := by
  have hlen : k < ((List.range l.length).zip l).length := by
    rw [List.length_zip, List.length_range, Nat.min_self]
    exact h
  rw [List.getD_eq_getElem _ _ hlen, List.getD_eq_getElem _ _ h,
    List.getElem_zip, List.getElem_range]

theorem collectImages_spec [Inhabited β] (f : ℕ → Option β) :
    ∀ (l : List ℕ) (parts : List β), collectImages f l = some parts →
      parts.length = l.length ∧ ∀ x ∈ l.zip parts, f x.1 = some x.2 := by
  intro l
  induction l with
  | nil =>
    intro parts h
    rw [collectImages] at h
    injection h with h
    subst h
    simp
  | cons i rest ih =>
    intro parts h
    rw [collectImages] at h
    simp only [Option.bind_eq_some, Option.some.injEq] at h
    obtain ⟨b, hb, bs, hbs, hparts⟩ := h
    subst hparts
    obtain ⟨hlen, hall⟩ := ih bs hbs
    refine ⟨by simp [hlen], ?_⟩
    intro x hx
    rw [List.zip_cons_cons] at hx
    rcases List.mem_cons.mp hx with h2 | h2
    · subst h2
      exact hb
    · exact hall x h2

theorem collectImages_range [Inhabited β] (f : ℕ → Option β) (n : ℕ)
    (parts : List β) (h : collectImages f (List.range n) = some parts) :
    parts.length = n ∧
      ∀ k (d : β), k < n → f k = some (parts.getD k d) := by
  obtain ⟨hlen, hall⟩ := collectImages_spec f (List.range n) parts h
  rw [List.length_range] at hlen
  refine ⟨hlen, ?_⟩
  intro k d hk
  have hk2 : k < parts.length := by rw [hlen]; exact hk
  have hmem : (k, parts.getD k d) ∈ (List.range n).zip parts := by
    have := getD_zip_range2 parts k d hk2
    rw [hlen] at this
    rw [← this]
    apply getD_mem_of_lt
    rw [List.length_zip, List.length_range, hlen, Nat.min_self]
    exact hk
  exact hall _ hmem

theorem lossesPerImage_lengths (enc : List ℚ → List ℚ → List ℚ)
    (gtBoxes : List (List (List ℚ))) (prepaddingGtCounts : List ℕ)
    (gtIdForEachFg : List (List ℕ)) (proposalFgBoxes : List (List ℚ))
    (proposalLabels : List ℕ) (labelLogits : List (List ℚ))
    (proposalFgInds : List ℕ) (boxLogits : List (List (List ℚ)))
    (proposalBoxes : List (List ℚ)) (bboxRegressionWeights : List ℚ) (i : ℕ)
    (part : List ℕ × List (List ℚ) × List (List ℚ) × List (List (List ℚ)))
    (h : lossesPerImage enc gtBoxes prepaddingGtCounts gtIdForEachFg
      proposalFgBoxes proposalLabels labelLogits proposalFgInds boxLogits
      proposalBoxes bboxRegressionWeights i = some part) :
    part.1.length = (proposalBoxes.filter fun row =>
      decide (row.getD 0 0 = (i : ℚ))).length ∧
    part.2.2.2.length = (proposalFgBoxes.filter fun row =>
      decide (row.getD 0 0 = (i : ℚ))).length := by
  simp only [lossesPerImage, Option.bind_eq_some, Option.some.injEq] at h
  obtain ⟨a1, h1, a2, h2, a3, h3, a4, h4, a5, h5, a6, h6, a7, h7, a8, h8, a9,
    h9, hpart⟩ := h
  subst hpart
  constructor
  · dsimp only
    rw [gather_eq_some h6, List.length_map, whereIdx_length]
  · dsimp only
    rw [gather_eq_some h9, List.length_map, gather_eq_some h8,
      List.length_map, whereIdx_length]

/-- C2 (amended): `BoxClassHead.losses` does not fail fast on out-of-range
image indices.  When the loss-input assembly succeeds, the concatenated label
vector has exactly one entry per proposal whose image tag equals some
`i ∈ [0, batch_size)`, and the concatenated foreground box logits one row per
so-tagged foreground box: rows tagged outside `[0, batch_size)` are silently
dropped from every per-image gather and from the concatenated loss inputs. -/
theorem c2_amended_out_of_range_dropped (enc : List ℚ → List ℚ → List ℚ)
    (batchSize : ℕ) (gtBoxes : List (List (List ℚ)))
    (prepaddingGtCounts : List ℕ) (gtIdForEachFg : List (List ℕ))
    (proposalFgBoxes : List (List ℚ)) (proposalLabels : List ℕ)
    (labelLogits : List (List ℚ)) (proposalFgInds : List ℕ)
    (boxLogits : List (List (List ℚ))) (proposalBoxes : List (List ℚ))
    (bboxRegressionWeights : List ℚ) (ls : List ℕ) (ll eb : List (List ℚ))
    (fl : List (List (List ℚ)))
    (h : boxClassHeadLossInputs enc batchSize gtBoxes prepaddingGtCounts
      gtIdForEachFg proposalFgBoxes proposalLabels labelLogits proposalFgInds
      boxLogits proposalBoxes bboxRegressionWeights = some (ls, ll, eb, fl)) :
    ls.length = (proposalBoxes.filter fun row =>
      (List.range batchSize).any fun i =>
        decide (row.getD 0 0 = (i : ℚ))).length ∧
    fl.length = (proposalFgBoxes.filter fun row =>
      (List.range batchSize).any fun i =>
        decide (row.getD 0 0 = (i : ℚ))).length := by
  simp only [boxClassHeadLossInputs, Option.bind_eq_some, Option.some.injEq,
    Prod.mk.injEq] at h
  obtain ⟨parts, hparts, hls, hll, heb, hfl⟩ := h
  obtain ⟨hlen, hall⟩ := collectImages_range _ _ _ hparts
  constructor
  · rw [← hls, List.length_join, List.map_map]
    rw [show parts.map (List.length ∘ fun x => x.1) =
        (List.range batchSize).map (fun (i : ℕ) =>
          (proposalBoxes.filter fun row =>
            decide (row.getD 0 0 = (i : ℚ))).length) from ?_]
    · exact sum_countP_image_range _ _ _
    · apply List.ext_getElem
      · rw [List.length_map, List.length_map, List.length_range, hlen]
      · intro k h1 h2
        rw [List.getElem_map, List.getElem_map, List.getElem_range]
        rw [List.length_map, hlen] at h1
        have hf := hall k default h1
        have hl := (lossesPerImage_lengths enc gtBoxes prepaddingGtCounts
          gtIdForEachFg proposalFgBoxes proposalLabels labelLogits
          proposalFgInds boxLogits proposalBoxes bboxRegressionWeights k
          (parts.getD k default) hf).1
        rw [List.getD_eq_getElem _ _ (by rw [hlen]; exact h1)] at hl
        exact hl
  · rw [← hfl, List.length_join, List.map_map]
    rw [show parts.map (List.length ∘ fun x => x.2.2.2) =
        (List.range batchSize).map (fun (i : ℕ) =>
          (proposalFgBoxes.filter fun row =>
            decide (row.getD 0 0 = (i : ℚ))).length) from ?_]
    · exact sum_countP_image_range _ _ _
    · apply List.ext_getElem
      · rw [List.length_map, List.length_map, List.length_range, hlen]
      · intro k h1 h2
        rw [List.getElem_map, List.getElem_map, List.getElem_range]
        rw [List.length_map, hlen] at h1
        have hf := hall k default h1
        have hl := (lossesPerImage_lengths enc gtBoxes prepaddingGtCounts
          gtIdForEachFg proposalFgBoxes proposalLabels labelLogits
          proposalFgInds boxLogits proposalBoxes bboxRegressionWeights k
          (parts.getD k default) hf).2
        rw [List.getD_eq_getElem _ _ (by rw [hlen]; exact h1)] at hl
        exact hl

/-- C2 counterexample: batch size 1, one foreground box tagged image 5 and one
proposal tagged image 7 — both outside `[0, 1)`.  `BoxClassHead.losses` does
not fail: the assembly returns `some`, and the concatenated loss inputs hold
only the image-0 entries; the out-of-range rows were silently dropped, so the
claim that the code fails fast on such indices is false. -/
theorem c2_counterexample :
    boxClassHeadLossInputs (fun _ _ => [0, 0, 0, 0]) 1 [[[0, 0, 10, 10]]] [1]
      [[0]] [[0, 1, 1, 9, 9], [5, 2, 2, 3, 3]] [1, 1] [[0, 1], [1, 0]] [0, 1]
      [[[1, 2, 3, 4]], [[5, 6, 7, 8]]] [[0, 1, 1, 9, 9], [7, 2, 2, 3, 3]]
      [10, 10, 5, 5] =
      some ([1], [[0, 1]], [[0, 0, 0, 0]], [[[1, 2, 3, 4]]]) := by
  with_unfolding_all rfl

theorem c2_witness :
    boxClassHeadLossInputs (fun _ _ => [0, 0, 0, 0]) 1 [[[0, 0, 10, 10]]] [1]
      [[0]] [[0, 1, 1, 9, 9], [5, 2, 2, 3, 3]] [1, 1] [[0, 1], [1, 0]] [0, 1]
      [[[1, 2, 3, 4]], [[5, 6, 7, 8]]] [[0, 1, 1, 9, 9], [7, 2, 2, 3, 3]]
      [10, 10, 5, 5] =
      some ([1], [[0, 1]], [[0, 0, 0, 0]], [[[1, 2, 3, 4]]]) ∧
    ([1] : List ℕ).length =
      (([[0, 1, 1, 9, 9], [7, 2, 2, 3, 3]] : List (List ℚ)).filter
        fun (row : List ℚ) =>
        (List.range 1).any fun i => decide (row.getD 0 0 = (i : ℚ))).length ∧
    ([[[1, 2, 3, 4]]] : List (List (List ℚ))).length =
      (([[0, 1, 1, 9, 9], [5, 2, 2, 3, 3]] : List (List ℚ)).filter
        fun (row : List ℚ) =>
        (List.range 1).any fun i =>
          decide (row.getD 0 0 = (i : ℚ))).length := by
  have h : boxClassHeadLossInputs (fun _ _ => [0, 0, 0, 0]) 1 [[[0, 0, 10, 10]]]
      [1] [[0]] [[0, 1, 1, 9, 9], [5, 2, 2, 3, 3]] [1, 1] [[0, 1], [1, 0]]
      [0, 1] [[[1, 2, 3, 4]], [[5, 6, 7, 8]]]
      [[0, 1, 1, 9, 9], [7, 2, 2, 3, 3]] [10, 10, 5, 5] =
      some ([1], [[0, 1]], [[0, 0, 0, 0]], [[[1, 2, 3, 4]]]) := by
    with_unfolding_all rfl
  have h2 := c2_amended_out_of_range_dropped (fun _ _ => [0, 0, 0, 0]) 1
    [[[0, 0, 10, 10]]] [1] [[0]] [[0, 1, 1, 9, 9], [5, 2, 2, 3, 3]] [1, 1]
    [[0, 1], [1, 0]] [0, 1] [[[1, 2, 3, 4]], [[5, 6, 7, 8]]]
    [[0, 1, 1, 9, 9], [7, 2, 2, 3, 3]] [10, 10, 5, 5] [1] [[0, 1]]
    [[0, 0, 0, 0]] [[[1, 2, 3, 4]]] h
  exact ⟨h, h2.1, h2.2⟩

/-! ### Claim C9: the batch-tagged inference decoder (source lines 314-324) -/

/-- Modelled from the spec: `decode_bbox_target` lives in `model_box.py`,
which is not among the sources at hand; per the spec it applies the box
decoding independently to each (delta row, anchor row) pair of the
N x #class x 4 tensors, so the per-pair decoder `dec` is kept abstract and
mapped over the paired structure. -/
def decode_bbox_target (dec : List ℚ → List ℚ → List ℚ)
    (deltas anchors : List (List (List ℚ))) : List (List (List ℚ)) :=
  List.zipWith (fun ds as => List.zipWith dec ds as) deltas anchors

/-- Embeds `BoxClassHead.decoded_output_boxes_batch` (source lines 314-324):
`tf.split(proposal_boxes, [1, 4], 1)` becomes per-row `take 1` / `drop 1`,
the `tf.tile(tf.expand_dims(..), [1, NUM_CLASS, 1])` becomes a per-row
`List.replicate numClass`, the logits are divided elementwise by the
regression weights (broadcast over the last axis), and
`tf.reshape(batch_ids, [-1])` flattens the N x 1 column. -/
def decoded_output_boxes_batch (dec : List ℚ → List ℚ → List ℚ)
    (numClass : ℕ) (regWeights : List ℚ) (proposal_boxes : List (List ℚ))
    (box_logits : List (List (List ℚ))) : List (List (List ℚ)) × List ℚ :=
  let batch_ids := proposal_boxes.map fun row => row.take 1
  let nobatch_proposal_boxes := proposal_boxes.map fun row => row.drop 1
  let anchors := nobatch_proposal_boxes.map fun b => List.replicate numClass b
  let scaled := box_logits.map fun rows =>
    rows.map fun r => List.zipWith (fun x w => x / w) r regWeights
  (decode_bbox_target dec scaled anchors, batch_ids.flatten)

theorem getD_zipWith_lt (f : α → β → γ) (l1 : List α) (l2 : List β)
    (i : ℕ) (d1 : α) (d2 : β) (d3 : γ)
    (h1 : i < l1.length) (h2 : i < l2.length) :
    (List.zipWith f l1 l2).getD i d3 = f (l1.getD i d1) (l2.getD i d2) := by
  rw [List.getD_eq_getElem _ _ (by rw [List.length_zipWith]; omega),
    List.getD_eq_getElem _ _ h1, List.getD_eq_getElem _ _ h2,
    List.getElem_zipWith]

theorem getD_replicate_lt (n k : ℕ) (b d : α) (h : k < n) :
    (List.replicate n b).getD k d = b := by
  rw [List.getD_eq_getElem _ _ (by simpa using h), List.getElem_replicate]

theorem flatten_take_one (l : List (List ℚ)) (h : ∀ row ∈ l, row ≠ []) :
    (l.map fun row => row.take 1).flatten = l.map fun row => row.getD 0 0 := by
  induction l with
  | nil => rfl
  | cons a t ih =>
    cases a with
    | nil => exact absurd rfl (h [] (List.mem_cons_self _ _))
    | cons x xs =>
      simp only [List.map_cons, List.flatten_cons, List.take_succ_cons,
        List.take_zero, List.singleton_append, List.getD_cons_zero]
      rw [ih fun r hr => h r (List.mem_cons_of_mem _ hr)]

/-- C9: `decoded_output_boxes_batch` divides the regression logits
elementwise by the regression weights, uses each proposal box with its
leading image-index column stripped, replicated across all `numClass`
slots, as the decode anchor, and returns the decoded boxes (one `dec`
application per (proposal, class) pair) together with the stripped
image-index column as a separate flat output. -/
theorem c9_decoded_output_boxes_batch
    (dec : List ℚ → List ℚ → List ℚ) (numClass : ℕ) (regWeights : List ℚ)
    (proposal_boxes : List (List ℚ)) (box_logits : List (List (List ℚ)))
    (hN : box_logits.length = proposal_boxes.length)
    (hK : ∀ rows ∈ box_logits, rows.length = numClass)
    (hrow : ∀ row ∈ proposal_boxes, row ≠ []) :
    (decoded_output_boxes_batch dec numClass regWeights proposal_boxes
        box_logits).1.length = proposal_boxes.length ∧
    (∀ i, i < proposal_boxes.length → ∀ k, k < numClass →
      ((decoded_output_boxes_batch dec numClass regWeights proposal_boxes
          box_logits).1.getD i []).getD k [] =
        dec (List.zipWith (fun x w => x / w)
              ((box_logits.getD i []).getD k []) regWeights)
            ((proposal_boxes.getD i []).drop 1)) ∧
    (decoded_output_boxes_batch dec numClass regWeights proposal_boxes
        box_logits).2 = proposal_boxes.map fun row => row.getD 0 0 := by
  simp only [decoded_output_boxes_batch, decode_bbox_target]
  refine ⟨?_, ?_, ?_⟩
  · rw [List.length_zipWith, List.length_map, List.length_map, List.length_map,
      hN, Nat.min_self]
  · intro i hi k hk
    have hib : i < box_logits.length := by omega
    rw [getD_zipWith_lt _ _ _ i [] [] [] (by simpa using hib) (by simpa using hi)]
    rw [getD_map_lt _ _ i [] [] hib]
    rw [getD_map_lt _ _ i [] [] (by simpa using hi)]
    rw [getD_map_lt _ _ i [] [] hi]
    have hkr : k < (box_logits.getD i []).length := by
      rw [hK _ (getD_mem_of_lt [] hib)]; exact hk
    rw [getD_zipWith_lt _ _ _ k [] [] [] (by simpa using hkr) (by simpa using hk)]
    rw [getD_map_lt _ _ k [] [] hkr]
    rw [getD_replicate_lt _ _ _ _ hk]
  · exact flatten_take_one _ hrow

/-- Witness for C9: one proposal box `[0, 1, 2, 3, 4]` (image index 0),
two class slots, logits divided by weights `[2, 2, 2, 2]`, decoder
`zipWith (+)`: slot 1 decodes to the theorem's formula, and the second
output is the image-index column. -/
theorem c9_witness :
    (∀ row ∈ ([[0, 1, 2, 3, 4]] : List (List ℚ)), row ≠ []) ∧
    ((decoded_output_boxes_batch (fun d a => List.zipWith (· + ·) d a) 2
        [2, 2, 2, 2] [[0, 1, 2, 3, 4]]
        [[[1, 1, 1, 1], [2, 2, 2, 2]]]).1.getD 0 []).getD 1 [] =
      List.zipWith (· + ·)
        (List.zipWith (fun x w => x / w) ([2, 2, 2, 2] : List ℚ) [2, 2, 2, 2])
        [1, 2, 3, 4] ∧
    (decoded_output_boxes_batch (fun d a => List.zipWith (· + ·) d a) 2
        [2, 2, 2, 2] [[0, 1, 2, 3, 4]]
        [[[1, 1, 1, 1], [2, 2, 2, 2]]]).2 =
      ([[0, 1, 2, 3, 4]] : List (List ℚ)).map fun row => row.getD 0 0 := by
  have hrow : ∀ row ∈ ([[0, 1, 2, 3, 4]] : List (List ℚ)), row ≠ [] := by
    intro row hr
    rw [List.mem_singleton] at hr
    subst hr
    exact List.cons_ne_nil _ _
  have h := c9_decoded_output_boxes_batch
    (fun d a => List.zipWith (· + ·) d a) 2 [2, 2, 2, 2] [[0, 1, 2, 3, 4]]
    [[[1, 1, 1, 1], [2, 2, 2, 2]]] rfl
    (by
      intro rows hr
      rw [List.mem_singleton] at hr
      subst hr
      rfl) hrow
  exact ⟨hrow, h.2.1 0 (by decide) 1 (by decide), h.2.2⟩

/-! ### Claim C10: `output_scores` softmax rows (source lines 339-342) -/

/-- Row-wise `tf.nn.softmax`: each entry is its exponential divided by the
sum of the exponentials of the whole row. The embedding uses exact real
exponentials, hence lives over `ℝ` and is noncomputable (`Real.exp` is
transcendental); concrete instances are evaluated with `Real.exp_zero`. -/
noncomputable def softmax (l : List ℝ) : List ℝ :=
  l.map fun x => Real.exp x / (l.map Real.exp).sum

/-- Embeds `BoxClassHead.output_scores` (source lines 339-342):
`tf.nn.softmax(self.label_logits)`, the softmax taken along the class
axis, i.e. row by row. -/
noncomputable def output_scores (label_logits : List (List ℝ)) :
    List (List ℝ) :=
  label_logits.map softmax

/-- C10: every row of `output_scores` (the softmax of the classification
logits) has entries in [0, 1] and sums to exactly 1, for every nonempty
logit row, regardless of the logit values. -/
theorem c10_output_scores_prob (label_logits : List (List ℝ))
    (h : ∀ row ∈ label_logits, row ≠ []) :
    ∀ srow ∈ output_scores label_logits,
      (∀ s ∈ srow, 0 ≤ s ∧ s ≤ 1) ∧ srow.sum = 1 := by
  intro srow hsrow
  rw [output_scores, List.mem_map] at hsrow
  obtain ⟨row, hrow, hsm⟩ := hsrow
  subst hsm
  have hne : row.map Real.exp ≠ [] := by
    intro hc
    exact h row hrow (List.map_eq_nil.mp hc)
  have hS : 0 < (row.map Real.exp).sum := by
    apply List.sum_pos
    · intro x hx
      rw [List.mem_map] at hx
      obtain ⟨y, _, hy⟩ := hx
      rw [← hy]
      exact Real.exp_pos y
    · exact hne
  constructor
  · intro s hs
    rw [softmax, List.mem_map] at hs
    obtain ⟨x, hx, hsx⟩ := hs
    subst hsx
    constructor
    · exact div_nonneg (Real.exp_pos x).le hS.le
    · rw [div_le_one hS]
      exact List.single_le_sum
        (fun y hy => by
          rw [List.mem_map] at hy
          obtain ⟨z, _, hz⟩ := hy
          rw [← hz]
          exact (Real.exp_pos z).le)
        _ (List.mem_map_of_mem Real.exp hx)
  · rw [softmax]
    have : (row.map fun x =>
        Real.exp x / (row.map Real.exp).sum).sum =
        (row.map Real.exp).sum / (row.map Real.exp).sum := by
      simp only [div_eq_mul_inv]
      rw [← List.sum_map_mul_right]
    rw [this, div_self (ne_of_gt hS)]

/-- Witness for C10: the logit row `[0, 0]` is nonempty, and its softmax
row has entries in [0, 1] and sums to 1. -/
theorem c10_witness :
    (∀ row ∈ ([[(0 : ℝ), 0]] : List (List ℝ)), row ≠ []) ∧
    ((∀ s ∈ softmax [(0 : ℝ), 0], 0 ≤ s ∧ s ≤ 1) ∧
      (softmax [(0 : ℝ), 0]).sum = 1) := by
  have h : ∀ row ∈ ([[(0 : ℝ), 0]] : List (List ℝ)), row ≠ [] := by
    intro row hr
    rw [List.mem_singleton] at hr
    subst hr
    exact List.cons_ne_nil _ _
  refine ⟨h, c10_output_scores_prob [[(0 : ℝ), 0]] h (softmax [(0 : ℝ), 0]) ?_⟩
  simp [output_scores]
